import Mathlib

/-!
# mapgen: the analyzer and the emitter of `main.go`

A shallow embedding of `main.go`: `parseConstants`, which walks the syntax
trees of a package, filters the value specs of `const` declarations by their
explicit type, attributes them to groups through `// @group <name>` comments
and fills `ConstantInfo.Constants` and `ConstantInfo.Groups`; and
`generateCode`, which renders the symbol table through the template, formats
the text and writes it out.

Go strings are modelled by `String` (sequences of Unicode code points), Go
slices by `List`, and the Go map `map[string][]string` by an association
list with distinct keys.  The syntax tree of `go/ast` is reduced to the
nodes the callback of `ast.Inspect` can tell apart.
-/

namespace Mapgen

/-! ## Library primitives used by `main.go` -/

/-- The class `\s` of Go regular expressions (RE2 syntax): exactly the five
characters tab, line feed, form feed, carriage return and space. -/
def reSpace (c : Char) : Bool :=
  c.toNat = 9 || c.toNat = 10 || c.toNat = 12 || c.toNat = 13 || c.toNat = 32

/-- The predicate `unicode.IsSpace`: the Unicode property White_Space. -/
def isSpace (c : Char) : Bool :=
  let n := c.toNat
  (9 ≤ n && n ≤ 13) || n = 0x20 || n = 0x85 || n = 0xA0 || n = 0x1680 ||
  (0x2000 ≤ n && n ≤ 0x200A) || n = 0x2028 || n = 0x2029 || n = 0x202F ||
  n = 0x205F || n = 0x3000

/-- The function `strings.TrimSpace` on a sequence of code points: all leading
and all trailing white space (in the sense of `unicode.IsSpace`) is removed. -/
def trimSpaceChars (s : List Char) : List Char :=
  ((s.dropWhile isSpace).reverse.dropWhile isSpace).reverse

/-- The function `strings.TrimSpace`. -/
def TrimSpace (s : String) : String :=
  String.mk (trimSpaceChars s.data)

/-- The function `unicode.ToUpper`.  Up to `MaxASCII` the library maps the
letters `a`..`z` to `A`..`Z` and leaves every other character alone; above
`MaxASCII` it consults its case tables, which are the parameter `caseTable`
(the map `unicode.To(unicode.UpperCase, ·)`). -/
def unicodeToUpper (caseTable : Char → Char) (r : Char) : Char :=
  if r.toNat ≤ 0x7F then
    if 97 ≤ r.toNat ∧ r.toNat ≤ 122 then Char.ofNat (r.toNat - 32) else r
  else caseTable r

/-- The match of `^//\s*@group\s+(\S+)` at the start of a text, on code points:
the whole match and the capture.  Every quantified class of the pattern is
followed by something disjoint from it, so the greedy leftmost match takes
each run of `\s` and the run of `\S` whole. -/
def groupRegexMatch (text : List Char) : Option (List Char × List Char) :=
  match text with
  | '/' :: '/' :: r =>
    match r.dropWhile reSpace with
    | '@' :: 'g' :: 'r' :: 'o' :: 'u' :: 'p' :: r2 =>
      let name := (r2.dropWhile reSpace).takeWhile (fun c => !reSpace c)
      if r2.takeWhile reSpace ≠ [] ∧ name ≠ [] then
        some ('/' :: '/' :: (r.takeWhile reSpace ++ "@group".data
                ++ r2.takeWhile reSpace ++ name), name)
      else none
    | _ => none
  | _ => none

/-- The call `groupRegex.FindStringSubmatch(text)` for
`groupRegex = regexp.MustCompile("^//\\s*@group\\s+(\\S+)")`: the empty slice
when the text does not match, otherwise the whole match followed by the
capture. -/
def FindStringSubmatch (text : String) : List String :=
  match groupRegexMatch text.data with
  | none => []
  | some (whole, name) => [String.mk whole, String.mk name]

/-! ## The syntax tree, as far as `parseConstants` looks at it -/

/-- The token of a general declaration (`token.CONST` and the others). -/
inductive Token where
  | CONST
  | VAR
  | TYPE
  | IMPORT
  deriving DecidableEq, Repr

/-- A comment (`ast.Comment`): its text, the comment markers included. -/
structure Comment where
  Text : String
  deriving DecidableEq, Repr

/-- A group of comments (`ast.CommentGroup`). -/
structure CommentGroup where
  List : List Comment
  deriving DecidableEq, Repr

/-- The type expression of a value spec (`ast.Expr`): an identifier
(`*ast.Ident`), or any other expression node (selector, pointer, array,
parenthesised expression, ...). -/
inductive Expr where
  | Ident (Name : String)
  | other
  deriving DecidableEq, Repr

/-- A value spec (`ast.ValueSpec`): its doc comment, the declared names and
the explicit type, if any (the field `Type` of the source, a reserved word
here, is `Typ` throughout). -/
structure ValueSpec where
  Doc : Option CommentGroup
  Names : List String
  Typ : Option Expr
  deriving DecidableEq, Repr

/-- A spec of a general declaration (`ast.Spec`): a value spec, or an import
or type spec. -/
inductive Spec where
  | value (v : ValueSpec)
  | other
  deriving DecidableEq, Repr

/-- A node of the syntax tree as `ast.Inspect` visits it.  `GenDecl` is a
general declaration; `inner` are the nodes below its specs, in the order of
the walk (a const declaration can only sit there inside a function literal).
`other` is any node that is not a general declaration (a function declaration,
a block, a declaration statement, ...), with its children in walk order.  The
callback does nothing on a node that is not a general declaration, so subtrees
without one may be left out. -/
inductive Node where
  | GenDecl (Doc : Option CommentGroup) (Tok : Token) (Specs : List Spec)
      (inner : List Node)
  | other (children : List Node)

/-- A source file (`ast.File`): its declarations, top level first. -/
structure File where
  Decls : List Node

/-- A loaded package (`packages.Package`): its name and syntax trees. -/
structure Package where
  Name : String
  Syntax : List File

/-! ## The symbol table -/

/-- The Go map `map[string][]string`: an association list. -/
abbrev GroupMap := List (String × List String)

/-- The read `m[key]`: the zero value (the nil slice) on a missing key. -/
def GroupMap.get : GroupMap → String → List String
  | [], _ => []
  | (k, v) :: rest, key => if k = key then v else GroupMap.get rest key

/-- The write `m[key] = val`. -/
def GroupMap.set : GroupMap → String → List String → GroupMap
  | [], key, val => [(key, val)]
  | (k, v) :: rest, key, val =>
    if k = key then (k, val) :: rest else (k, v) :: GroupMap.set rest key val

/-- The keys of the map. -/
def GroupMap.keys (m : GroupMap) : List String := m.map Prod.fst

/-- The struct `ConstantInfo`. -/
structure ConstantInfo where
  Typ : String
  Constants : List String
  HasIntValues : Bool
  Groups : GroupMap
  deriving DecidableEq, Repr

/-- The struct `Generator` (without its unused output buffer). -/
structure Generator where
  pkg : Package
  Typ : String
  constantInfo : ConstantInfo

/-! ## `toTitleCase` and `parseConstants` -/

/-- The function `toTitleCase`: the first code point is upper-cased, the rest
is unchanged; the empty string is returned as it is. -/
def toTitleCase (caseTable : Char → Char) (input : String) : String :=
  match input.data with
  | [] => input
  | r :: runes => String.mk (unicodeToUpper caseTable r :: runes)

/-- The loop over `doc.List` (lines 166-171): every comment that matches the
group pattern overwrites `currentGroup`. -/
def scanDoc (caseTable : Char → Char) (doc : CommentGroup) (currentGroup : String) :
    String :=
  doc.List.foldl
    (fun cur comment =>
      let found := FindStringSubmatch comment.Text
      if found.length = 2 then toTitleCase caseTable (TrimSpace (found.getD 1 "")) else cur)
    currentGroup

/-- The loop over `valueSpec.Names` (lines 175-181): every name is appended to
`Constants` and, when `currentGroup` is not empty, to that group. -/
def collectNames (names : List String) (currentGroup : String) (ci : ConstantInfo) :
    ConstantInfo :=
  names.foldl
    (fun ci constName =>
      let ci := { ci with Constants := ci.Constants ++ [constName] }
      if currentGroup ≠ "" then
        { ci with Groups :=
            ci.Groups.set currentGroup (ci.Groups.get currentGroup ++ [constName]) }
      else ci)
    ci

/-- One iteration of the loop over `decl.Specs` (lines 142-182), on the pair
of `currentGroup` and the symbol table. -/
def visitSpec (caseTable : Char → Char) (declDoc : Option CommentGroup) (spec : Spec)
    (st : String × ConstantInfo) : String × ConstantInfo :=
  match spec with
  | Spec.other => st
  | Spec.value valueSpec =>
    if valueSpec.Names.length = 0 then st
    else
      match valueSpec.Typ with
      | none => st
      | some Expr.other => st
      | some (Expr.Ident name) =>
        if name ≠ st.2.Typ then st
        else
          let doc := match declDoc with
            | some d => some d
            | none => valueSpec.Doc
          let currentGroup := match doc with
            | some d => scanDoc caseTable d st.1
            | none => st.1
          (currentGroup, collectNames valueSpec.Names currentGroup st.2)

/-- The body of the callback for a general declaration (lines 133-184):
`currentGroup` starts empty and the specs are visited in order. -/
def visitGenDecl (caseTable : Char → Char) (declDoc : Option CommentGroup) (tok : Token)
    (specs : List Spec) (ci : ConstantInfo) : ConstantInfo :=
  if tok ≠ Token.CONST then ci
  else (specs.foldl (fun st spec => visitSpec caseTable declDoc spec st) ("", ci)).2

mutual
/-- The walk `ast.Inspect(n, f)` with the callback of `parseConstants`, which
always returns `true`: the node first, then everything below it. -/
def inspect (caseTable : Char → Char) : Node → ConstantInfo → ConstantInfo
  | Node.GenDecl doc tok specs inner, ci =>
    inspectList caseTable inner (visitGenDecl caseTable doc tok specs ci)
  | Node.other children, ci => inspectList caseTable children ci
/-- The walk over a list of sibling nodes, left to right. -/
def inspectList (caseTable : Char → Char) : List Node → ConstantInfo → ConstantInfo
  | [], ci => ci
  | n :: ns, ci => inspectList caseTable ns (inspect caseTable n ci)
end

/-- The method `Generator.parseConstants`: every file of the package is
inspected in order; only `constantInfo` changes. -/
def Generator.parseConstants (caseTable : Char → Char) (g : Generator) : Generator :=
  { g with constantInfo :=
      g.pkg.Syntax.foldl (fun ci file => inspectList caseTable file.Decls ci) g.constantInfo }

/-- The generator as `main` builds it (lines 66-74): empty `Constants`, empty
`Groups`, `HasIntValues` left at its zero value. -/
def newGenerator (pkg : Package) (typeName : String) : Generator :=
  { pkg := pkg
    Typ := typeName
    constantInfo :=
      { Typ := typeName, Constants := [], HasIntValues := false, Groups := [] } }

/-! ## What the claims speak of: blocks, typed members, declared names -/

/-- A const declaration block: its doc comment and its specs. -/
structure Block where
  Doc : Option CommentGroup
  Specs : List Spec

mutual
/-- The const blocks at or below a node, in the order the walk meets them. -/
def constBlocks : Node → List Block
  | Node.GenDecl doc tok specs inner =>
    (if tok = Token.CONST then [{ Doc := doc, Specs := specs }] else [])
      ++ constBlocksList inner
  | Node.other children => constBlocksList children
/-- The const blocks at or below a list of sibling nodes. -/
def constBlocksList : List Node → List Block
  | [] => []
  | n :: ns => constBlocks n ++ constBlocksList ns
end

/-- The const blocks of a package: files in order, blocks in walk order. -/
def Package.constBlocks (pkg : Package) : List Block :=
  pkg.Syntax.flatMap (fun file => constBlocksList file.Decls)

/-- Whether the explicit type annotation of a spec is the bare identifier `T`. -/
def hasExplicitType (T : String) : Spec → Bool
  | Spec.value v => decide (v.Typ = some (Expr.Ident T))
  | Spec.other => false

/-- The names a spec declares, left to right. -/
def Spec.names : Spec → List String
  | Spec.value v => v.Names
  | Spec.other => []

/-- The doc comment of a spec. -/
def Spec.doc : Spec → Option CommentGroup
  | Spec.value v => v.Doc
  | Spec.other => none

/-- The names a block declares with the explicit type `T`, in declaration
order. -/
def Block.typedNames (T : String) (b : Block) : List String :=
  (b.Specs.filter (hasExplicitType T)).flatMap Spec.names

/-- The names a package declares with the explicit type `T`, in source order. -/
def Package.typedNames (T : String) (pkg : Package) : List String :=
  pkg.constBlocks.flatMap (Block.typedNames T)

/-- The callback body on a block. -/
def visitBlock (caseTable : Char → Char) (ci : ConstantInfo) (b : Block) : ConstantInfo :=
  visitGenDecl caseTable b.Doc Token.CONST b.Specs ci

/-- A member the type filter (lines 143-158) lets through: a value spec with
at least one name whose explicit type is the bare identifier `T`. -/
def typeMatching (T : String) (spec : Spec) : Bool :=
  hasExplicitType T spec && !spec.names.isEmpty

/-- The names `names` appended to `Constants` and, when `group` is not the
empty string, to the member list of `group`. -/
def ConstantInfo.append (ci : ConstantInfo) (group : String) (names : List String) :
    ConstantInfo :=
  { ci with
    Constants := ci.Constants ++ names
    Groups :=
      if group = "" ∨ names = [] then ci.Groups
      else ci.Groups.set group (ci.Groups.get group ++ names) }

/-- The group a comment line names: the capture of the group pattern, trimmed
and title-cased; `none` when the line does not match the pattern. -/
def lineGroup (caseTable : Char → Char) (text : String) : Option String :=
  match groupRegexMatch text.data with
  | none => none
  | some (_, name) => some (toTitleCase caseTable (TrimSpace (String.mk name)))

/-- The group a doc comment names: that of its last matching line. -/
def docGroup (caseTable : Char → Char) (doc : CommentGroup) : Option String :=
  (doc.List.filterMap (fun comment => lineGroup caseTable comment.Text)).getLast?

/-- The doc comment that applies to a member (lines 161-164): that of the
block when the block has one, else the member's own. -/
def applicableDoc (declDoc : Option CommentGroup) (spec : Spec) : Option CommentGroup :=
  match declDoc with
  | some d => some d
  | none => spec.doc

/-- The loop over `decl.Specs` (lines 142-182) from a given cursor and table. -/
def specLoop (caseTable : Char → Char) (declDoc : Option CommentGroup) (specs : List Spec)
    (st : String × ConstantInfo) : String × ConstantInfo :=
  specs.foldl (fun st spec => visitSpec caseTable declDoc spec st) st

/-- The group a member of a block without doc comment announces: the group its
own doc comment names, provided the type filter lets the member through. -/
def memberGroup (caseTable : Char → Char) (T : String) (spec : Spec) : Option String :=
  if typeMatching T spec then spec.doc.bind (docGroup caseTable) else none

/-- The group in force after the members `specs` of a block without doc
comment: the most recent announcement among them, the empty string (no group)
when there is none. -/
def groupInForce (caseTable : Char → Char) (T : String) (specs : List Spec) : String :=
  ((specs.filterMap (memberGroup caseTable T)).getLast?).getD ""

/-- A value spec `names T = ...` with the given lines of doc comment. -/
def typedSpec (T : String) (names : List String) (docLines : List String) : Spec :=
  Spec.value
    { Doc := if docLines = [] then none else some ⟨docLines.map Comment.mk⟩
      Names := names
      Typ := some (Expr.Ident T) }

/-- A value spec `names` (or `names = ...`) without a type annotation. -/
def untypedSpec (names : List String) : Spec :=
  Spec.value { Doc := none, Names := names, Typ := none }

/-- The empty symbol table for the type `T`. -/
def emptyInfo (T : String) : ConstantInfo :=
  { Typ := T, Constants := [], HasIntValues := false, Groups := [] }

/-- The block `const ( A T = iota; B; C )`. -/
def iotaBlock : Block :=
  { Doc := none, Specs := [typedSpec "T" ["A"] [], untypedSpec ["B"], untypedSpec ["C"]] }

/-- The block of the annotation-persistence example: `A` under `// @group X`,
`B`, `C` under `// @group Y`, `D`, all of type `T`. -/
def persistenceSpecs : List Spec :=
  [typedSpec "T" ["A"] ["// @group X"], typedSpec "T" ["B"] [],
   typedSpec "T" ["C"] ["// @group Y"], typedSpec "T" ["D"] []]

/-- A package of one file holding the block `const ( A T = iota; B; C )`. -/
def iotaPackage : Package :=
  { Name := "p", Syntax := [⟨[Node.GenDecl iotaBlock.Doc Token.CONST iotaBlock.Specs []]⟩] }

/-- A spec with its doc comment removed. -/
def Spec.withoutDoc : Spec → Spec
  | Spec.value v => Spec.value { v with Doc := none }
  | Spec.other => Spec.other

/-! ### The sample input `testdata/privateevent.go` -/

/-- Lines 5-8: `const ( SideBuy Side = 1; SideSell Side = -1 )`. -/
def sideBlock : Block :=
  { Doc := none
    Specs := [typedSpec "Side" ["SideBuy"] [], typedSpec "Side" ["SideSell"] []] }

/-- Lines 12-30: the first `PrivateChannel` block; `// @group Margin` is the
doc comment of `PrivateChannelMWalletOrder`. -/
def privateChannelBlock : Block :=
  { Doc := none
    Specs :=
      [typedSpec "PrivateChannel" ["PrivateChannelOrder"] [],
       typedSpec "PrivateChannel" ["PrivateChannelOrderUpdate"] [],
       typedSpec "PrivateChannel" ["PrivateChannelTrade"] [],
       typedSpec "PrivateChannel" ["PrivateChannelTradeUpdate"] [],
       typedSpec "PrivateChannel" ["PrivateChannelTradeFastUpdate"] [],
       typedSpec "PrivateChannel" ["PrivateChannelAccount"] [],
       typedSpec "PrivateChannel" ["PrivateChannelAccountUpdate"] [],
       typedSpec "PrivateChannel" ["PrivateChannelMWalletOrder"] ["// @group Margin"],
       typedSpec "PrivateChannel" ["PrivateChannelMWalletTrade"] [],
       typedSpec "PrivateChannel" ["PrivateChannelMWalletTradeFastUpdate"] [],
       typedSpec "PrivateChannel" ["PrivateChannelMWalletAccount"] [],
       typedSpec "PrivateChannel" ["PrivateChannelMWalletAveragePrice"] [],
       typedSpec "PrivateChannel" ["PrivateChannelBorrowing"] [],
       typedSpec "PrivateChannel" ["PrivateChannelAdRatio"] [],
       typedSpec "PrivateChannel" ["PrivateChannelPoolQuota"] []] }

/-- Lines 32-36: the block under the doc comment `// @group Misc`. -/
def miscBlock : Block :=
  { Doc := some ⟨[⟨"// @group Misc"⟩]⟩
    Specs :=
      [typedSpec "PrivateChannel" ["PrivateChannelAveragePrice"] [],
       typedSpec "PrivateChannel" ["PrivateChannelFavoriteMarket"] []] }

/-- The declaration node of a const block with nothing nested below it. -/
def Block.toNode (b : Block) : Node :=
  Node.GenDecl b.Doc Token.CONST b.Specs []

/-- The file `testdata/privateevent.go`: two type declarations and three
const blocks. -/
def privateeventFile : File :=
  { Decls :=
      [Node.GenDecl none Token.TYPE [Spec.other] [], sideBlock.toNode,
       Node.GenDecl none Token.TYPE [Spec.other] [], privateChannelBlock.toNode,
       miscBlock.toNode] }

/-- The package `testdata`. -/
def testdataPackage : Package :=
  { Name := "testdata", Syntax := [privateeventFile] }

/-- A string that starts with the image of a character under `unicode.ToUpper`
(it is then not empty). -/
def TitleCased (caseTable : Char → Char) (s : String) : Prop :=
  ∃ r rest, s.data = unicodeToUpper caseTable r :: rest

/-- A package of one file whose declarations are the given const blocks. -/
def blocksPackage (bs : List Block) : Package :=
  { Name := "p", Syntax := [⟨bs.map Block.toNode⟩] }

/-- Two blocks: `const ( A T = 0 )` with `// @group X` on `A`, then
`const ( B T = 1 )` without any comment. -/
def resetPackage : Package :=
  blocksPackage
    [{ Doc := none, Specs := [typedSpec "T" ["A"] ["// @group X"]] },
     { Doc := none, Specs := [typedSpec "T" ["B"] []] }]

/-- The doc comment `// @group margin`. -/
def marginLower : CommentGroup := ⟨[⟨"// @group margin"⟩]⟩

/-- The doc comment `// @group Margin`. -/
def marginUpper : CommentGroup := ⟨[⟨"// @group Margin"⟩]⟩

/-- Whether a string starts with an uppercase letter, read generously: a
letter `A`..`Z`, or any character beyond ASCII. -/
def startsWithUpperLetter (s : String) : Bool :=
  match s.data with
  | [] => false
  | c :: _ => c.isUpper || decide (127 < c.toNat)

/-- The block `const ( A T = 0 )` under the doc comment `// @group 1st`. -/
def digitPackage : Package :=
  blocksPackage [{ Doc := some ⟨[⟨"// @group 1st"⟩]⟩, Specs := [typedSpec "T" ["A"] []] }]

/-- The block `const ( _ T = 0; _ T = 1 )`: the blank identifier twice. -/
def blankPackage : Package :=
  blocksPackage [{ Doc := none, Specs := [typedSpec "T" ["_"] [], typedSpec "T" ["_"] []] }]

/-- No name sits in the member lists of two different groups. -/
def AtMostOneGroup (ci : ConstantInfo) : Prop :=
  ∀ name k1 k2 : String, name ∈ ci.Groups.get k1 → name ∈ ci.Groups.get k2 → k1 = k2

/-- All member lists of a group map, one after the other. -/
def GroupMap.members (m : GroupMap) : List String := m.flatMap Prod.snd

/-- The block `const ( _ T = 0; _ T = 1 )` with `// @group X` on the first
spec and `// @group Y` on the second. -/
def blankGroupsPackage : Package :=
  blocksPackage
    [{ Doc := none
       Specs := [typedSpec "T" ["_"] ["// @group X"], typedSpec "T" ["_"] ["// @group Y"]] }]

/-- The group in force at the last of the members `upTo` of a block with the
doc comment `doc`: the group the block comment names when there is a block
comment, else the most recent announcement among the members `upTo`. -/
def groupAt (caseTable : Char → Char) (T : String) (doc : Option CommentGroup)
    (upTo : List Spec) : String :=
  match doc with
  | some d => (docGroup caseTable d).getD ""
  | none => groupInForce caseTable T upTo

/-- The name `name` is declared in the block `b` by a type-matching member at
which the group `k` is in force. -/
def DeclaredUnder (caseTable : Char → Char) (T : String) (b : Block) (name k : String) : Prop :=
  ∃ pre spec post, b.Specs = pre ++ spec :: post ∧ typeMatching T spec = true
    ∧ name ∈ spec.names ∧ groupAt caseTable T b.Doc (pre ++ [spec]) = k

/-- The spec `A T = 0` under the two comment lines `// @group X` and
`// @group Y`. -/
def twoLineSpec : Spec :=
  typedSpec "T" ["A"] ["// @group X", "// @group Y"]

/-- A package of one file holding the annotation-persistence block. -/
def persistencePackage : Package :=
  blocksPackage [{ Doc := none, Specs := persistenceSpecs }]

/-- Two blocks: `const ( A T = 0 )` under `// @group margin` and
`const ( B T = 1 )` under `// @group MARGIN`. -/
def upperCasePackage : Package :=
  blocksPackage
    [{ Doc := some marginLower, Specs := [typedSpec "T" ["A"] []] },
     { Doc := some ⟨[⟨"// @group MARGIN"⟩]⟩, Specs := [typedSpec "T" ["B"] []] }]

/-- The constants that are in no group's member list, in `Constants` order. -/
def ConstantInfo.ungrouped (ci : ConstantInfo) : List String :=
  ci.Constants.filter (fun c => !(GroupMap.members ci.Groups).contains c)

/-- The node `node` below `depth` enclosing nodes that are not general
declarations (function declaration, block, declaration statement, ...). -/
def nestIn : Nat → Node → Node
  | 0, node => node
  | depth + 1, node => Node.other [nestIn depth node]

/-- A file with the one declaration `func f() { const A T = 1 }`: the const
declaration sits below the function declaration, its body block and a
declaration statement. -/
def nestedPackage : Package :=
  { Name := "p"
    Syntax := [⟨[nestIn 3 (Node.GenDecl none Token.CONST [typedSpec "T" ["A"] []] [])]⟩] }

/-! ### The group pattern as a regular expression -/

/-- A piece of a regular expression, as far as `groupRegex` needs it: a
literal character, `x*`, `x+` and the capturing `(x+)` for a character class
`x`, all greedy. -/
inductive ReAtom where
  | char (c : Char)
  | star (cls : Char → Bool)
  | plus (cls : Char → Bool)
  | capturePlus (cls : Char → Bool)

/-- The greedy repetition of a character class by backtracking: one more
character of the class is taken whenever possible, and only when the rest of
the expression (`k`, given the characters taken and the input left) then fails
is the shorter repetition tried. -/
def repeatGreedy {α : Type} (cls : Char → Bool) (k : List Char → List Char → Option α) :
    List Char → List Char → Option α
  | taken, [] => k taken []
  | taken, c :: rest =>
    if cls c then
      match repeatGreedy cls k (taken ++ [c]) rest with
      | some r => some r
      | none => k taken (c :: rest)
    else k taken (c :: rest)

/-- The backtracking match of a sequence of pieces at the start of the input:
the first match in the order of a backtracking search (the leftmost-first match
of Go's `regexp`), as the capture and the input left after the match. -/
def matchAtoms : List ReAtom → List Char → List Char → Option (List Char × List Char)
  | [], capture, input => some (capture, input)
  | ReAtom.char c :: atoms, capture, input =>
    match input with
    | [] => none
    | x :: rest => if x = c then matchAtoms atoms capture rest else none
  | ReAtom.star cls :: atoms, capture, input =>
    repeatGreedy cls (fun _ rest => matchAtoms atoms capture rest) [] input
  | ReAtom.plus cls :: atoms, capture, input =>
    repeatGreedy cls
      (fun taken rest => if taken = [] then none else matchAtoms atoms capture rest) [] input
  | ReAtom.capturePlus cls :: atoms, _, input =>
    repeatGreedy cls
      (fun taken rest => if taken = [] then none else matchAtoms atoms taken rest) [] input

/-- The pattern of line 129 without its anchor: `//\s*@group\s+(\S+)`. -/
def groupRegex : List ReAtom :=
  [ReAtom.char '/', ReAtom.char '/', ReAtom.star reSpace,
   ReAtom.char '@', ReAtom.char 'g', ReAtom.char 'r', ReAtom.char 'o', ReAtom.char 'u',
   ReAtom.char 'p', ReAtom.plus reSpace, ReAtom.capturePlus (fun c => !reSpace c)]

/-- The submatches of a pattern anchored at the start of the text (`^`): the
whole match and the capture of the backtracking match at position 0. -/
def findAnchored (atoms : List ReAtom) (text : List Char) : Option (List Char × List Char) :=
  match matchAtoms atoms [] text with
  | none => none
  | some (capture, rest) => some (text.take (text.length - rest.length), capture)

/-- A group line in the words of the specification: `//`, any number of white
space characters, the keyword `@group`, at least one white space character,
then the name, a non-empty run of characters that are not white space and that
ends at the end of the line or in front of a white space character; `rest` is
what follows the name.  White space is the class `\s` of the pattern. -/
def IsGroupLine (text name : List Char) : Prop :=
  ∃ ws1 ws2 rest : List Char,
    text = '/' :: '/' :: (ws1 ++ "@group".data ++ ws2 ++ name ++ rest)
      ∧ (∀ c ∈ ws1, reSpace c = true)
      ∧ ws2 ≠ [] ∧ (∀ c ∈ ws2, reSpace c = true)
      ∧ name ≠ [] ∧ (∀ c ∈ name, reSpace c = false)
      ∧ (∀ c ∈ rest.head?, reSpace c = true)

/-! ### The emitter: template, formatter and output file -/

/-- The data handed to the template (lines 262-274). -/
structure TemplateData where
  PkgName : String
  Typ : String
  Constants : List String
  HasIntValues : Bool
  Groups : GroupMap
  deriving DecidableEq, Repr

/-- The data `generateCode` builds from the generator. -/
def Generator.templateData (g : Generator) : TemplateData :=
  { PkgName := g.pkg.Name
    Typ := g.constantInfo.Typ
    Constants := g.constantInfo.Constants
    HasIntValues := g.constantInfo.HasIntValues
    Groups := g.constantInfo.Groups }

/-- A piece of the template without a loop in it: text, the actions
`.PkgName`, `.Type` (written `$.Type` inside a loop), `.` (the element of the
loop), `$group`, and `if .HasIntValues` with its two texts. -/
inductive Leaf where
  | text (s : String)
  | PkgName
  | Typ
  | dot
  | group
  | ifHasIntValues (thenText elseText : String)
  deriving DecidableEq, Repr

/-- A node inside `range $group, $constants := .Groups`: a run of pieces, or
the loop `range $constants`. -/
inductive GroupNode where
  | run (pieces : List Leaf)
  | rangeConstants (body : List Leaf)
  deriving DecidableEq, Repr

/-- A node of the template at top level: a run of pieces, the loop
`range .Constants`, or the loop over `.Groups`. -/
inductive TopNode where
  | run (pieces : List Leaf)
  | rangeConstants (body : List Leaf)
  | rangeGroups (body : List GroupNode)
  deriving DecidableEq, Repr

section
open Leaf

/-- The template of lines 190-255 as `template.Parse` reads it: the text
between the actions, where an action that opens with a minus sign (every
`range` and the `end` of every `range`) has swallowed the white space in front
of it. -/
def templateText : List TopNode :=
  [TopNode.run
     [text "// Code generated by go:generate; DO NOT EDIT.\npackage ", PkgName,
      text "\n\nvar All", Typ, text "s = map[", Typ, text "]struct\x7b\x7d\x7b"],
   TopNode.rangeConstants
     [text "\n\t", dot, text ": \x7b\x7d,"],
   TopNode.run
     [text "\n\x7d"],
   TopNode.rangeGroups
     [GroupNode.run
        [text "\nvar All", group, Typ, text "s = map[", Typ, text "]struct\x7b\x7d\x7b"],
      GroupNode.rangeConstants
        [text "\n\t", dot, text ": \x7b\x7d,"],
      GroupNode.run
        [text "\n\x7d\n\n// All", group, Typ, text "sKeys converts the ", group,
         text " group map of ", Typ, text " to a slice of ", Typ, text "\nfunc All", group, Typ,
         text "sKeys() []", Typ, text " \x7b\n\tkeys := make([]", Typ, text ", 0, len(All", group,
         Typ, text "s))\n\tfor k := range All", group, Typ,
         text "s \x7b\n\t\tkeys = append(keys, k)\n\t\x7d\n\treturn keys\n\x7d\n\n// Validate",
         group, Typ, text "s validates if a value belongs to the ", group, text " group of ", Typ,
         text "\nfunc Validate", group, Typ, text "s(ch ", Typ,
         text ") bool \x7b\n\t_, ok := All", group, Typ, text "s[ch]\n\treturn ok\n\x7d\n\n// Is",
         group, Typ, text " checks if the value is in the ", group, text " group of ", Typ,
         text "\nfunc Is", group, Typ, text "(ch ", Typ, text ") bool \x7b\n\t_, exist := All",
         group, Typ, text "s[ch]\n\treturn exist\n\x7d"]],
   TopNode.run
     [text "\n\nvar All", Typ, text "sSlice = []", Typ, text "\x7b"],
   TopNode.rangeConstants
     [text "\n\t", dot, text ","],
   TopNode.run
     [text "\n\x7d\n\n// ", Typ, text "Strings converts a slice of ", Typ, text " to a slice of ",
      ifHasIntValues "int" "string", text "\nfunc ", Typ, text "Strings(slice []", Typ,
      text ") (out []", ifHasIntValues "int" "string",
      text ") \x7b\n\tfor _, el := range slice \x7b\n\t\tout = append(out, ",
      ifHasIntValues "int" "string", text "(el))\n\t\x7d\n\treturn out\n\x7d\n\n// ", Typ,
      text "Keys converts a map of ", Typ, text " to a slice of ", Typ, text "\nfunc ", Typ,
      text "Keys(values map[", Typ, text "]struct\x7b\x7d) (slice []", Typ,
      text ") \x7b\n\tfor k := range values \x7b\n\t\tslice = append(slice, k)\n\t\x7d\n\treturn slice\n\x7d\n\n// Validate",
      Typ, text " validates a value of type ", Typ, text "\nfunc Validate", Typ, text "(ch ", Typ,
      text ") bool \x7b\n\t_, ok := All", Typ, text "s[ch]\n\treturn ok\n\x7d\n"]]

end

/-- The strings of a list, one after the other. -/
def concat : List String → String
  | [] => ""
  | s :: rest => s ++ concat rest

/-- The order of strings in Go (`<=`): lexicographic by character. -/
def charsLe : List Char → List Char → Bool
  | [], _ => true
  | _ :: _, [] => false
  | a :: as, b :: bs => decide (a.toNat < b.toNat) || (decide (a.toNat = b.toNat) && charsLe as bs)

/-- The order in which `text/template` visits the keys of a map of strings. -/
def keyLe (a b : String) : Bool := charsLe a.data b.data

/-- The keys of a map in the order a `range` over the map visits them:
sorted. -/
def sortedKeys (m : GroupMap) : List String :=
  m.keys.insertionSort (fun a b => keyLe a b = true)

/-- The text of a piece, given the data, the group and the element in scope. -/
def Leaf.exec (d : TemplateData) (groupName element : String) : Leaf → String
  | Leaf.text s => s
  | Leaf.PkgName => d.PkgName
  | Leaf.Typ => d.Typ
  | Leaf.dot => element
  | Leaf.group => groupName
  | Leaf.ifHasIntValues thenText elseText => if d.HasIntValues then thenText else elseText

/-- The text of a run of pieces. -/
def execLeaves (d : TemplateData) (groupName element : String) (pieces : List Leaf) : String :=
  concat (pieces.map (Leaf.exec d groupName element))

/-- The text of a node of the loop over the groups, for one group and its
member list. -/
def GroupNode.exec (d : TemplateData) (groupName : String) (constants : List String) :
    GroupNode → String
  | GroupNode.run pieces => execLeaves d groupName "" pieces
  | GroupNode.rangeConstants body =>
    concat (constants.map (fun c => execLeaves d groupName c body))

/-- The text of a top-level node.  The loop over `.Groups` visits the keys in
sorted order. -/
def TopNode.exec (d : TemplateData) : TopNode → String
  | TopNode.run pieces => execLeaves d "" "" pieces
  | TopNode.rangeConstants body => concat (d.Constants.map (fun c => execLeaves d "" c body))
  | TopNode.rangeGroups body =>
    concat ((sortedKeys d.Groups).map
      (fun k => concat (body.map (GroupNode.exec d k (d.Groups.get k)))))

/-- The call `tmpl.Execute(&buf, data)`: the text the template renders. -/
def Execute (d : TemplateData) : String :=
  concat (templateText.map (TopNode.exec d))

/-- The nodes of the loop over `.Groups`. -/
def groupNodes : List GroupNode :=
  templateText.flatMap (fun n =>
    match n with
    | TopNode.rangeGroups body => body
    | _ => [])

/-- What the template renders for a group after the entries of its map
literal: the closing brace and the three functions of the group. -/
def groupRest (d : TemplateData) (k : String) : String :=
  concat ((groupNodes.drop 2).map (GroupNode.exec d k (d.Groups.get k)))

/-- What the template renders after the entries of the global slice literal:
the closing brace and the three global functions. -/
def trailer (d : TemplateData) : String :=
  concat ((templateText.drop 6).map (TopNode.exec d))

/-- The entries of a map literal: for every name a line `<tab>name: {},`. -/
def mapEntries (names : List String) : String :=
  concat (names.map (fun c => "\n\t" ++ c ++ ": \x7b\x7d,"))

/-- The entries of a slice literal: for every name a line `<tab>name,`. -/
def sliceEntries (names : List String) : String :=
  concat (names.map (fun c => "\n\t" ++ c ++ ","))

/-- The lines of a text: the runs between its line feeds. -/
def splitLines : List Char → List (List Char)
  | [] => [[]]
  | c :: rest =>
    if c = '\n' then [] :: splitLines rest
    else
      match splitLines rest with
      | [] => [[c]]
      | l :: ls => (c :: l) :: ls

/-- The lines of a string. -/
def linesOf (s : String) : List String :=
  (splitLines s.data).map String.mk

/-- The output file (`*os.File`) as far as `generateCode` uses it: the byte
strings handed to `Write`, in the order of the calls. -/
structure OutputFile where
  writes : List String
  deriving DecidableEq, Repr

/-- The errors `generateCode` returns (lines 278, 284, 289), with the error of
the failing call.  The error of line 259 cannot arise: the template is a
constant that parses. -/
inductive GenerateError where
  | generatingTemplate (err : String)
  | formattingSource (err : String)
  | writingOutput (err : String)
  deriving DecidableEq, Repr

/-- Lines 276-292 of `generateCode`, over the three calls it makes:
`tmpl.Execute` into a local buffer, `format.Source` on the buffer, and
`output.Write`, whose error (if any) is `writeError`.  The result is the error
returned and the output file afterwards. -/
def generateCodeWith (execute : TemplateData → Except String String)
    (formatSource : String → Except String String) (writeError : String → Option String)
    (g : Generator) (output : OutputFile) : Option GenerateError × OutputFile :=
  match execute g.templateData with
  | Except.error e => (some (GenerateError.generatingTemplate e), output)
  | Except.ok buf =>
    match formatSource buf with
    | Except.error e => (some (GenerateError.formattingSource e), output)
    | Except.ok formatted =>
      match writeError formatted with
      | some e => (some (GenerateError.writingOutput e), ⟨output.writes ++ [formatted]⟩)
      | none => (none, ⟨output.writes ++ [formatted]⟩)

/-- The method `Generator.generateCode`: the template of the source is
executed (which does not fail on the data of lines 262-274), the text is
formatted by `format.Source` and written to the output. -/
def Generator.generateCode (formatSource : String → Except String String)
    (writeError : String → Option String) (g : Generator) (output : OutputFile) :
    Option GenerateError × OutputFile :=
  generateCodeWith (fun d => Except.ok (Execute d)) formatSource writeError g output

/-- The text the template renders for `testdata/privateevent.go` and the type
`Side`, before formatting. -/
def sideRendered : String :=
    "// Code generated by go:generate; DO NOT EDIT.\n" ++
    "package testdata\n" ++
    "\n" ++
    "var AllSides = map[Side]struct\x7b\x7d\x7b\n" ++
    "\tSideBuy: \x7b\x7d,\n" ++
    "\tSideSell: \x7b\x7d,\n" ++
    "\x7d\n" ++
    "\n" ++
    "var AllSidesSlice = []Side\x7b\n" ++
    "\tSideBuy,\n" ++
    "\tSideSell,\n" ++
    "\x7d\n" ++
    "\n" ++
    "// SideStrings converts a slice of Side to a slice of string\n" ++
    "func SideStrings(slice []Side) (out []string) \x7b\n" ++
    "\tfor _, el := range slice \x7b\n" ++
    "\t\tout = append(out, string(el))\n" ++
    "\t\x7d\n" ++
    "\treturn out\n" ++
    "\x7d\n" ++
    "\n" ++
    "// SideKeys converts a map of Side to a slice of Side\n" ++
    "func SideKeys(values map[Side]struct\x7b\x7d) (slice []Side) \x7b\n" ++
    "\tfor k := range values \x7b\n" ++
    "\t\tslice = append(slice, k)\n" ++
    "\t\x7d\n" ++
    "\treturn slice\n" ++
    "\x7d\n" ++
    "\n" ++
    "// ValidateSide validates a value of type Side\n" ++
    "func ValidateSide(ch Side) bool \x7b\n" ++
    "\t_, ok := AllSides[ch]\n" ++
    "\treturn ok\n" ++
    "\x7d\n"

/-! ## Structure of the walk -/

mutual
theorem inspect_eq_foldl (caseTable : Char → Char) :
    ∀ (n : Node) (ci : ConstantInfo),
      inspect caseTable n ci = (constBlocks n).foldl (visitBlock caseTable) ci
  | Node.GenDecl doc tok specs inner, ci => by
    simp only [inspect, constBlocks, List.foldl_append]
    rw [inspectList_eq_foldl caseTable inner]
    by_cases h : tok = Token.CONST
    · subst h; simp [visitBlock]
    · simp [h, visitGenDecl]
  | Node.other children, ci => by
    simp only [inspect, constBlocks]
    exact inspectList_eq_foldl caseTable children ci
theorem inspectList_eq_foldl (caseTable : Char → Char) :
    ∀ (ns : List Node) (ci : ConstantInfo),
      inspectList caseTable ns ci = (constBlocksList ns).foldl (visitBlock caseTable) ci
  | [], ci => by simp [inspectList, constBlocksList]
  | n :: ns, ci => by
    simp only [inspectList, constBlocksList, List.foldl_append]
    rw [inspect_eq_foldl caseTable n, inspectList_eq_foldl caseTable ns]
end

/-- The whole of `parseConstants` is the callback body run on the const blocks
of the package, one after the other. -/
theorem parseConstants_eq_foldl (caseTable : Char → Char) (g : Generator) :
    (g.parseConstants caseTable).constantInfo
      = g.pkg.constBlocks.foldl (visitBlock caseTable) g.constantInfo := by
  unfold Generator.parseConstants Package.constBlocks
  simp only
  generalize g.constantInfo = ci
  induction g.pkg.Syntax generalizing ci with
  | nil => simp
  | cons f fs ih =>
    simp only [List.foldl_cons, List.flatMap_cons, List.foldl_append]
    rw [ih, inspectList_eq_foldl]

/-! ## The group map -/

theorem GroupMap.get_set_self (m : GroupMap) (k : String) (v : List String) :
    (m.set k v).get k = v := by
  induction m with
  | nil => simp [GroupMap.set, GroupMap.get]
  | cons p rest ih =>
    obtain ⟨k0, v0⟩ := p
    by_cases h : k0 = k
    · simp [GroupMap.set, GroupMap.get, h]
    · simp [GroupMap.set, GroupMap.get, h, ih]

theorem GroupMap.get_set_of_ne (m : GroupMap) {k k1 : String} (v : List String)
    (hne : k1 ≠ k) : (m.set k v).get k1 = m.get k1 := by
  induction m with
  | nil => simp [GroupMap.set, GroupMap.get, Ne.symm hne]
  | cons p rest ih =>
    obtain ⟨k0, v0⟩ := p
    by_cases h : k0 = k
    · subst h
      simp [GroupMap.set, GroupMap.get, Ne.symm hne]
    · by_cases h1 : k0 = k1
      · subst h1
        simp [GroupMap.set, GroupMap.get, h]
      · simp [GroupMap.set, GroupMap.get, h, h1, ih]

theorem GroupMap.set_set (m : GroupMap) (k : String) (v w : List String) :
    (m.set k v).set k w = m.set k w := by
  induction m with
  | nil => simp [GroupMap.set]
  | cons p rest ih =>
    obtain ⟨k0, v0⟩ := p
    by_cases h : k0 = k
    · simp [GroupMap.set, h]
    · simp [GroupMap.set, h, ih]

theorem GroupMap.mem_set {m : GroupMap} {k : String} {v : List String}
    {p : String × List String} (hp : p ∈ m.set k v) : p = (k, v) ∨ p ∈ m := by
  induction m with
  | nil => simpa [GroupMap.set] using hp
  | cons q rest ih =>
    obtain ⟨k0, v0⟩ := q
    by_cases h : k0 = k
    · simp only [GroupMap.set, h, if_true, List.mem_cons] at hp
      rcases hp with hp | hp
      · exact Or.inl hp
      · exact Or.inr (List.mem_cons_of_mem _ hp)
    · simp only [GroupMap.set, h, if_false, List.mem_cons] at hp
      rcases hp with hp | hp
      · exact Or.inr (hp ▸ List.mem_cons_self _ _)
      · rcases ih hp with h1 | h1
        · exact Or.inl h1
        · exact Or.inr (List.mem_cons_of_mem _ h1)

theorem GroupMap.keys_set (m : GroupMap) (k : String) (v : List String) :
    (m.set k v).keys = if k ∈ m.keys then m.keys else m.keys ++ [k] := by
  induction m with
  | nil => simp [GroupMap.set, GroupMap.keys]
  | cons p rest ih =>
    obtain ⟨k0, v0⟩ := p
    simp only [GroupMap.keys] at ih
    by_cases h : k0 = k
    · simp [GroupMap.set, GroupMap.keys, h]
    · have h2 : ¬ k = k0 := fun e => h e.symm
      by_cases h1 : k ∈ rest.map Prod.fst
      · simp only [GroupMap.set, GroupMap.keys, h, if_false, List.map_cons, List.mem_cons,
          h1, or_true, if_true, List.cons.injEq, true_and]
        rw [ih, if_pos h1]
      · simp only [GroupMap.set, GroupMap.keys, h, if_false, List.map_cons, List.mem_cons,
          h1, h2, or_self, List.cons_append, List.cons.injEq, true_and]
        rw [ih, if_neg h1]

theorem GroupMap.get_of_not_mem_keys {m : GroupMap} {k : String} (h : k ∉ m.keys) :
    m.get k = [] := by
  induction m with
  | nil => rfl
  | cons p rest ih =>
    obtain ⟨k0, v0⟩ := p
    simp only [GroupMap.keys, List.map_cons, List.mem_cons, not_or] at h
    have h0 : ¬ k0 = k := fun e => h.1 e.symm
    simp only [GroupMap.get, h0, if_false]
    exact ih h.2

theorem GroupMap.mem_of_mem_keys {m : GroupMap} {k : String} (h : k ∈ m.keys) :
    (k, m.get k) ∈ m := by
  induction m with
  | nil => simp [GroupMap.keys] at h
  | cons p rest ih =>
    obtain ⟨k0, v0⟩ := p
    by_cases h0 : k0 = k
    · subst h0
      simp [GroupMap.get]
    · simp only [GroupMap.keys, List.map_cons, List.mem_cons] at h
      rcases h with h | h
      · exact absurd h.symm h0
      · simp only [GroupMap.get, h0, if_false]
        exact List.mem_cons_of_mem _ (ih h)

theorem GroupMap.get_of_mem {m : GroupMap} (hnd : m.keys.Nodup) {k : String}
    {v : List String} (h : (k, v) ∈ m) : m.get k = v := by
  induction m with
  | nil => simp at h
  | cons p rest ih =>
    obtain ⟨k0, v0⟩ := p
    simp only [GroupMap.keys, List.map_cons, List.nodup_cons] at hnd
    simp only [List.mem_cons, Prod.mk.injEq] at h
    rcases h with ⟨hk, hv⟩ | h
    · simp [GroupMap.get, hk, hv]
    · have hk : k ∈ rest.map Prod.fst := List.mem_map.mpr ⟨(k, v), h, rfl⟩
      have h0 : ¬ k0 = k := fun e => hnd.1 (e ▸ hk)
      simp only [GroupMap.get, h0, if_false]
      exact ih hnd.2 h

theorem GroupMap.nodup_keys_set {m : GroupMap} (hnd : m.keys.Nodup) (k : String)
    (v : List String) : (m.set k v).keys.Nodup := by
  rw [GroupMap.keys_set]
  by_cases h : k ∈ m.keys
  · simpa [h] using hnd
  · simp only [h, if_false]
    exact List.Nodup.append hnd (List.nodup_singleton k) (by simpa using h)

/-! ## The loops of the callback -/

theorem collectNames_eq_append (names : List String) (group : String) (ci : ConstantInfo) :
    collectNames names group ci = ci.append group names := by
  induction names generalizing ci with
  | nil => simp [collectNames, ConstantInfo.append]
  | cons n ns ih =>
    have hstep : collectNames (n :: ns) group ci
        = collectNames ns group (collectNames [n] group ci) := by
      simp [collectNames]
    rw [hstep, ih]
    by_cases hg : group = ""
    · simp [collectNames, ConstantInfo.append, hg]
    · by_cases hns : ns = []
      · simp [collectNames, ConstantInfo.append, hg, hns]
      · simp [collectNames, ConstantInfo.append, hg, hns, GroupMap.set_set,
          GroupMap.get_set_self]

theorem ConstantInfo.append_Typ (ci : ConstantInfo) (group : String) (names : List String) :
    (ci.append group names).Typ = ci.Typ := rfl

theorem ConstantInfo.append_Constants (ci : ConstantInfo) (group : String)
    (names : List String) : (ci.append group names).Constants = ci.Constants ++ names := rfl

theorem ConstantInfo.append_empty_group (ci : ConstantInfo) (names : List String) :
    (ci.append "" names).Groups = ci.Groups := by
  simp [ConstantInfo.append]

theorem ConstantInfo.append_nil (ci : ConstantInfo) (group : String) :
    ci.append group [] = ci := by
  simp [ConstantInfo.append]

theorem ConstantInfo.append_append (ci : ConstantInfo) (group : String)
    (xs ys : List String) : (ci.append group xs).append group ys = ci.append group (xs ++ ys) := by
  by_cases hg : group = ""
  · simp [ConstantInfo.append, hg]
  · by_cases hx : xs = []
    · simp [ConstantInfo.append, hx]
    · by_cases hy : ys = []
      · simp [ConstantInfo.append, hy]
      · simp [ConstantInfo.append, hg, hx, hy, GroupMap.set_set, GroupMap.get_set_self]

theorem scanDoc_eq (caseTable : Char → Char) (doc : CommentGroup) (currentGroup : String) :
    scanDoc caseTable doc currentGroup = (docGroup caseTable doc).getD currentGroup := by
  obtain ⟨lines⟩ := doc
  simp only [scanDoc, docGroup]
  induction lines using List.reverseRecOn with
  | nil => simp
  | append_singleton init c ih =>
    rw [List.foldl_append, List.filterMap_append]
    simp only [List.foldl_cons, List.foldl_nil, List.filterMap_cons, List.filterMap_nil]
    rw [ih]
    unfold lineGroup FindStringSubmatch
    cases hm : groupRegexMatch c.Text.data with
    | none => simp
    | some wn => obtain ⟨whole, name⟩ := wn; simp

/-- One iteration of the spec loop: a member the type filter lets through has
its names appended under the group its applicable comment leaves in force; any
other spec changes nothing. -/
theorem visitSpec_eq (caseTable : Char → Char) (declDoc : Option CommentGroup) (spec : Spec)
    (st : String × ConstantInfo) :
    visitSpec caseTable declDoc spec st =
      if typeMatching st.2.Typ spec then
        (((applicableDoc declDoc spec).bind (docGroup caseTable)).getD st.1,
          st.2.append (((applicableDoc declDoc spec).bind (docGroup caseTable)).getD st.1)
            spec.names)
      else st := by
  cases spec with
  | other => simp [visitSpec, typeMatching, hasExplicitType]
  | value v =>
    obtain ⟨vdoc, names, ty⟩ := v
    by_cases hn : names = []
    · simp [visitSpec, typeMatching, hasExplicitType, Spec.names, hn]
    · have hlen : ¬ names.length = 0 := by simpa using hn
      cases ty with
      | none => simp [visitSpec, typeMatching, hasExplicitType, hlen]
      | some e =>
        cases e with
        | other => simp [visitSpec, typeMatching, hasExplicitType, hlen]
        | Ident name =>
          by_cases hT : name = st.2.Typ
          · subst hT
            simp only [visitSpec, hlen, if_false, ne_eq, not_true_eq_false, typeMatching,
              hasExplicitType, decide_True, Spec.names, List.isEmpty_eq_true, hn,
              decide_False, Bool.not_false, Bool.and_self, if_true, collectNames_eq_append,
              applicableDoc, Spec.doc]
            cases declDoc with
            | some d => simp [scanDoc_eq, hn]
            | none =>
              cases vdoc with
              | some d => simp [scanDoc_eq, hn]
              | none => simp [hn]
          · simp [visitSpec, typeMatching, hasExplicitType, hlen, hT]

theorem specLoop_append (caseTable : Char → Char) (declDoc : Option CommentGroup)
    (xs ys : List Spec) (st : String × ConstantInfo) :
    specLoop caseTable declDoc (xs ++ ys) st
      = specLoop caseTable declDoc ys (specLoop caseTable declDoc xs st) := by
  simp [specLoop, List.foldl_append]

theorem specLoop_cons (caseTable : Char → Char) (declDoc : Option CommentGroup)
    (x : Spec) (xs : List Spec) (st : String × ConstantInfo) :
    specLoop caseTable declDoc (x :: xs) st
      = specLoop caseTable declDoc xs (visitSpec caseTable declDoc x st) := rfl

theorem visitGenDecl_const (caseTable : Char → Char) (declDoc : Option CommentGroup)
    (specs : List Spec) (ci : ConstantInfo) :
    visitGenDecl caseTable declDoc Token.CONST specs ci
      = (specLoop caseTable declDoc specs ("", ci)).2 := by
  simp [visitGenDecl, specLoop]

theorem visitSpec_Typ (caseTable : Char → Char) (declDoc : Option CommentGroup) (spec : Spec)
    (st : String × ConstantInfo) : (visitSpec caseTable declDoc spec st).2.Typ = st.2.Typ := by
  rw [visitSpec_eq]
  split <;> rfl

theorem specLoop_Typ (caseTable : Char → Char) (declDoc : Option CommentGroup)
    (specs : List Spec) (st : String × ConstantInfo) :
    (specLoop caseTable declDoc specs st).2.Typ = st.2.Typ := by
  induction specs generalizing st with
  | nil => rfl
  | cons x xs ih => rw [specLoop_cons, ih, visitSpec_Typ]

theorem visitBlock_Typ (caseTable : Char → Char) (ci : ConstantInfo) (b : Block) :
    (visitBlock caseTable ci b).Typ = ci.Typ := by
  simp [visitBlock, visitGenDecl_const, specLoop_Typ]

theorem foldl_visitBlock_Typ (caseTable : Char → Char) (bs : List Block) (ci : ConstantInfo) :
    (bs.foldl (visitBlock caseTable) ci).Typ = ci.Typ := by
  induction bs generalizing ci with
  | nil => rfl
  | cons b bs ih => rw [List.foldl_cons, ih, visitBlock_Typ]

theorem specLoop_Constants (caseTable : Char → Char) (declDoc : Option CommentGroup)
    (specs : List Spec) (st : String × ConstantInfo) :
    (specLoop caseTable declDoc specs st).2.Constants
      = st.2.Constants ++ (specs.filter (hasExplicitType st.2.Typ)).flatMap Spec.names := by
  induction specs generalizing st with
  | nil => simp [specLoop]
  | cons x xs ih =>
    rw [specLoop_cons, ih, visitSpec_Typ, visitSpec_eq]
    by_cases hx : hasExplicitType st.2.Typ x = true
    · by_cases hn : x.names = []
      · simp [typeMatching, hx, hn, List.filter_cons]
      · simp [typeMatching, hx, hn, List.filter_cons, ConstantInfo.append_Constants]
    · simp [typeMatching, hx, List.filter_cons]

theorem foldl_visitBlock_Constants (caseTable : Char → Char) (bs : List Block)
    (ci : ConstantInfo) :
    (bs.foldl (visitBlock caseTable) ci).Constants
      = ci.Constants ++ bs.flatMap (Block.typedNames ci.Typ) := by
  induction bs generalizing ci with
  | nil => simp
  | cons b bs ih =>
    rw [List.foldl_cons, ih, visitBlock_Typ]
    simp [visitBlock, visitGenDecl_const, specLoop_Constants, Block.typedNames]

/-! ## C1: the symbol list -/

/-- C1. Started by `main` on an empty `Constants` list, `parseConstants` leaves
`Constants` equal to the concatenation, in source order (files, then blocks,
then specs, then the names of a spec left to right), of the names of exactly
the value specs whose explicit type is the bare identifier `T`.  A spec without
a type annotation, or with a type expression that is not an identifier, leaves
the state as it is; in `const ( A T = iota; B; C )` only `A` is collected. -/
theorem parseConstants_Constants (caseTable : Char → Char) (pkg : Package) (T : String) :
    ((newGenerator pkg T).parseConstants caseTable).constantInfo.Constants
        = pkg.typedNames T
      ∧ (∀ (declDoc : Option CommentGroup) (v : ValueSpec) (st : String × ConstantInfo),
          visitSpec caseTable declDoc (Spec.value { v with Typ := none }) st = st
            ∧ visitSpec caseTable declDoc (Spec.value { v with Typ := some Expr.other }) st = st)
      ∧ ((newGenerator iotaPackage "T").parseConstants caseTable).constantInfo.Constants
          = ["A"] := by
  refine ⟨?_, ?_, ?_⟩
  · rw [parseConstants_eq_foldl, foldl_visitBlock_Constants]
    simp [newGenerator, Package.typedNames]
  · intro declDoc v st
    constructor
    · simp [visitSpec]
    · simp [visitSpec]
  · rfl

/-! ## C2: attribution inside a block without doc comment -/

theorem groupInForce_append_singleton (caseTable : Char → Char) (T : String)
    (pre : List Spec) (spec : Spec) :
    groupInForce caseTable T (pre ++ [spec])
      = (memberGroup caseTable T spec).getD (groupInForce caseTable T pre) := by
  unfold groupInForce
  rw [List.filterMap_append]
  cases h : memberGroup caseTable T spec with
  | none => simp [h]
  | some g => simp [h]

theorem specLoop_none_cursor (caseTable : Char → Char) (specs : List Spec) (ci : ConstantInfo) :
    (specLoop caseTable none specs ("", ci)).1 = groupInForce caseTable ci.Typ specs := by
  induction specs using List.reverseRecOn with
  | nil => rfl
  | append_singleton pre spec ih =>
    rw [specLoop_append, groupInForce_append_singleton]
    simp only [specLoop, List.foldl_cons, List.foldl_nil]
    rw [visitSpec_eq]
    have hT := specLoop_Typ caseTable none pre ("", ci)
    simp only [specLoop] at hT ih
    rw [hT]
    by_cases hm : typeMatching ci.Typ spec = true
    · simp [hm, memberGroup, applicableDoc, ih]
    · simp [hm, memberGroup, ih]

theorem visitGenDecl_none_snoc (caseTable : Char → Char) (pre : List Spec) (spec : Spec)
    (ci : ConstantInfo) :
    visitGenDecl caseTable none Token.CONST (pre ++ [spec]) ci =
      if typeMatching ci.Typ spec then
        (visitGenDecl caseTable none Token.CONST pre ci).append
          (groupInForce caseTable ci.Typ (pre ++ [spec])) spec.names
      else visitGenDecl caseTable none Token.CONST pre ci := by
  simp only [visitGenDecl_const]
  rw [specLoop_append, groupInForce_append_singleton]
  simp only [specLoop_cons]
  have hT := specLoop_Typ caseTable none pre ("", ci)
  have hc := specLoop_none_cursor caseTable pre ci
  simp only [specLoop, List.foldl_nil] at hT hc ⊢
  rw [visitSpec_eq, hT, hc]
  by_cases hm : typeMatching ci.Typ spec = true
  · simp [hm, memberGroup, applicableDoc]
  · simp [hm]

theorem visitGenDecl_none_Groups_of_no_group (caseTable : Char → Char) (specs : List Spec)
    (ci : ConstantInfo) (h : specs.filterMap (memberGroup caseTable ci.Typ) = []) :
    (visitGenDecl caseTable none Token.CONST specs ci).Groups = ci.Groups := by
  induction specs using List.reverseRecOn with
  | nil => simp [visitGenDecl]
  | append_singleton pre spec ih =>
    rw [List.filterMap_append, List.append_eq_nil] at h
    rw [visitGenDecl_none_snoc]
    have hg : groupInForce caseTable ci.Typ (pre ++ [spec]) = "" := by
      unfold groupInForce
      rw [List.filterMap_append, h.1, h.2]
      rfl
    split
    · rw [hg, ConstantInfo.append_empty_group]
      exact ih h.1
    · exact ih h.1

theorem visitGenDecl_skip (caseTable : Char → Char) (declDoc : Option CommentGroup)
    (pre post : List Spec) (spec : Spec) (ci : ConstantInfo)
    (h : typeMatching ci.Typ spec = false) :
    visitGenDecl caseTable declDoc Token.CONST (pre ++ spec :: post) ci
      = visitGenDecl caseTable declDoc Token.CONST (pre ++ post) ci := by
  simp only [visitGenDecl_const, specLoop_append, specLoop_cons]
  rw [visitSpec_eq, specLoop_Typ]
  simp [h]

/-- C2. In a const block without doc comment, the names of every member the
type filter lets through are appended to `Constants` and to the group in force
at that member: the (trimmed, title-cased) group named by the most recent
`@group` line in the doc comment of a type-matching member at or before it in
the block.  While no such line has been met the group in force is empty and no
group changes; a member the type filter rejects can be removed from the block,
its doc comment included, without changing the result.  The block
`A (@group X), B, C (@group Y), D` yields `X -> [A, B]` and `Y -> [C, D]`. -/
theorem annotation_persistence (caseTable : Char → Char) (pre : List Spec) (spec : Spec)
    (ci : ConstantInfo) :
    (visitGenDecl caseTable none Token.CONST (pre ++ [spec]) ci =
        if typeMatching ci.Typ spec then
          (visitGenDecl caseTable none Token.CONST pre ci).append
            (groupInForce caseTable ci.Typ (pre ++ [spec])) spec.names
        else visitGenDecl caseTable none Token.CONST pre ci)
      ∧ ((pre ++ [spec]).filterMap (memberGroup caseTable ci.Typ) = [] →
          (visitGenDecl caseTable none Token.CONST (pre ++ [spec]) ci).Groups = ci.Groups)
      ∧ (typeMatching ci.Typ spec = false → ∀ post : List Spec,
          visitGenDecl caseTable none Token.CONST (pre ++ spec :: post) ci
            = visitGenDecl caseTable none Token.CONST (pre ++ post) ci)
      ∧ (visitGenDecl caseTable none Token.CONST persistenceSpecs (emptyInfo "T")).Groups
          = [("X", ["A", "B"]), ("Y", ["C", "D"])] := by
  refine ⟨visitGenDecl_none_snoc caseTable pre spec ci, ?_, ?_, ?_⟩
  · exact visitGenDecl_none_Groups_of_no_group caseTable (pre ++ [spec]) ci
  · intro h post
    exact visitGenDecl_skip caseTable none pre post spec ci h
  · rfl

/-! ## C4: the block comment comes first -/

theorem docGroup_getD_idem (caseTable : Char → Char) (d : CommentGroup) (c : String) :
    (docGroup caseTable d).getD ((docGroup caseTable d).getD c) = (docGroup caseTable d).getD c := by
  cases docGroup caseTable d <;> rfl

theorem specLoop_some (caseTable : Char → Char) (d : CommentGroup) (specs : List Spec)
    (c : String) (ci : ConstantInfo) :
    (specLoop caseTable (some d) specs (c, ci)).2
      = ci.append ((docGroup caseTable d).getD c)
          ((specs.filter (hasExplicitType ci.Typ)).flatMap Spec.names) := by
  induction specs generalizing c ci with
  | nil => simp [specLoop, ConstantInfo.append_nil]
  | cons x xs ih =>
    rw [specLoop_cons, visitSpec_eq]
    by_cases hx : hasExplicitType ci.Typ x = true
    · by_cases hn : x.names = []
      · simp only [typeMatching, hx, hn, List.isEmpty_nil, Bool.not_true, Bool.and_false,
          Bool.false_eq_true, if_false]
        rw [ih]
        simp [List.filter_cons, hx, hn]
      · have hm : typeMatching ci.Typ x = true := by simp [typeMatching, hx, hn]
        simp only [hm, if_true, applicableDoc]
        rw [ih]
        simp only [Option.bind, ConstantInfo.append_Typ]
        rw [docGroup_getD_idem, ConstantInfo.append_append]
        simp [List.filter_cons, hx]
    · have hm : typeMatching ci.Typ x = false := by simp [typeMatching, hx]
      simp only [hm, Bool.false_eq_true, if_false]
      rw [ih]
      simp [List.filter_cons, hx]

theorem typedNames_map_withoutDoc (T : String) (specs : List Spec) :
    ((specs.map Spec.withoutDoc).filter (hasExplicitType T)).flatMap Spec.names
      = (specs.filter (hasExplicitType T)).flatMap Spec.names := by
  induction specs with
  | nil => rfl
  | cons x xs ih =>
    cases x with
    | other => simpa [Spec.withoutDoc, List.filter_cons, hasExplicitType] using ih
    | value v =>
      by_cases h : v.Typ = some (Expr.Ident T)
      · simp [Spec.withoutDoc, List.filter_cons, hasExplicitType, h, Spec.names, ih]
      · simp [Spec.withoutDoc, List.filter_cons, hasExplicitType, h, ih]

/-- C4. For a member the type filter lets through, the comment scanned for
`@group` is the doc comment of the enclosing block when the block has one and
the member's own doc comment only when the block has none.  Hence in a block
with a doc comment every such member goes to the group the block comment names
(to no group when it names none), and the doc comments of the members can be
removed without changing the result.  The block under `// @group Misc` of the
sample input puts its two constants in `Misc`. -/
theorem block_doc_preferred (caseTable : Char → Char) (d : CommentGroup) (specs : List Spec)
    (ci : ConstantInfo) :
    (∀ (spec : Spec) (st : String × ConstantInfo),
        visitSpec caseTable (some d) spec st =
          if typeMatching st.2.Typ spec then
            ((docGroup caseTable d).getD st.1,
              st.2.append ((docGroup caseTable d).getD st.1) spec.names)
          else st)
      ∧ (∀ (spec : Spec) (st : String × ConstantInfo),
        visitSpec caseTable none spec st =
          if typeMatching st.2.Typ spec then
            ((spec.doc.bind (docGroup caseTable)).getD st.1,
              st.2.append ((spec.doc.bind (docGroup caseTable)).getD st.1) spec.names)
          else st)
      ∧ visitGenDecl caseTable (some d) Token.CONST specs ci
          = ci.append ((docGroup caseTable d).getD "")
              (Block.typedNames ci.Typ { Doc := some d, Specs := specs })
      ∧ visitGenDecl caseTable (some d) Token.CONST specs ci
          = visitGenDecl caseTable (some d) Token.CONST (specs.map Spec.withoutDoc) ci
      ∧ (visitBlock caseTable (emptyInfo "PrivateChannel") miscBlock).Groups
          = [("Misc", ["PrivateChannelAveragePrice", "PrivateChannelFavoriteMarket"])] := by
  refine ⟨?_, ?_, ?_, ?_, ?_⟩
  · intro spec st
    rw [visitSpec_eq]
    rfl
  · intro spec st
    rw [visitSpec_eq]
    rfl
  · rw [visitGenDecl_const, specLoop_some]
    rfl
  · rw [visitGenDecl_const, visitGenDecl_const, specLoop_some, specLoop_some,
      typedNames_map_withoutDoc]
  · rfl

/-! ## An induction principle for the walk -/

theorem toTitleCase_cases (caseTable : Char → Char) (s : String) :
    toTitleCase caseTable s = "" ∨ TitleCased caseTable (toTitleCase caseTable s) := by
  unfold toTitleCase
  cases h : s.data with
  | nil =>
    left
    simp only
    exact String.ext (by simpa using h)
  | cons r rest =>
    right
    exact ⟨r, rest, rfl⟩

theorem TitleCased.ne_empty {caseTable : Char → Char} {s : String}
    (h : TitleCased caseTable s) : s ≠ "" := by
  obtain ⟨r, rest, hs⟩ := h
  intro he
  rw [he] at hs
  simp at hs

theorem lineGroup_cases {caseTable : Char → Char} {text g : String}
    (h : lineGroup caseTable text = some g) : g = "" ∨ TitleCased caseTable g := by
  unfold lineGroup at h
  cases hm : groupRegexMatch text.data with
  | none => simp [hm] at h
  | some wn =>
    obtain ⟨whole, name⟩ := wn
    simp only [hm, Option.some.injEq] at h
    rw [← h]
    exact toTitleCase_cases caseTable _

theorem docGroup_cases {caseTable : Char → Char} {d : CommentGroup} {g : String}
    (h : docGroup caseTable d = some g) : g = "" ∨ TitleCased caseTable g := by
  unfold docGroup at h
  have hmem := List.mem_of_getLast?_eq_some h
  rw [List.mem_filterMap] at hmem
  obtain ⟨c, _, hc⟩ := hmem
  exact lineGroup_cases hc

theorem visitSpec_induction (caseTable : Char → Char) (P : ConstantInfo → Prop)
    (hstep : ∀ (ci : ConstantInfo) (g : String) (names : List String),
      (g = "" ∨ TitleCased caseTable g) → P ci → P (ci.append g names))
    (declDoc : Option CommentGroup) (spec : Spec) (st : String × ConstantInfo)
    (hc : st.1 = "" ∨ TitleCased caseTable st.1) (hP : P st.2) :
    ((visitSpec caseTable declDoc spec st).1 = ""
        ∨ TitleCased caseTable (visitSpec caseTable declDoc spec st).1)
      ∧ P (visitSpec caseTable declDoc spec st).2 := by
  rw [visitSpec_eq]
  split
  · have hg : ((applicableDoc declDoc spec).bind (docGroup caseTable)).getD st.1 = ""
        ∨ TitleCased caseTable
            (((applicableDoc declDoc spec).bind (docGroup caseTable)).getD st.1) := by
      cases hd : (applicableDoc declDoc spec).bind (docGroup caseTable) with
      | none => simpa using hc
      | some g =>
        cases ha : applicableDoc declDoc spec with
        | none => simp [ha] at hd
        | some d =>
          rw [ha] at hd
          exact docGroup_cases hd
    exact ⟨hg, hstep _ _ _ hg hP⟩
  · exact ⟨hc, hP⟩

theorem specLoop_induction (caseTable : Char → Char) (P : ConstantInfo → Prop)
    (hstep : ∀ (ci : ConstantInfo) (g : String) (names : List String),
      (g = "" ∨ TitleCased caseTable g) → P ci → P (ci.append g names))
    (declDoc : Option CommentGroup) (specs : List Spec) (st : String × ConstantInfo)
    (hc : st.1 = "" ∨ TitleCased caseTable st.1) (hP : P st.2) :
    P (specLoop caseTable declDoc specs st).2 := by
  induction specs generalizing st with
  | nil => exact hP
  | cons x xs ih =>
    rw [specLoop_cons]
    have h := visitSpec_induction caseTable P hstep declDoc x st hc hP
    exact ih _ h.1 h.2

theorem foldl_visitBlock_induction (caseTable : Char → Char) (P : ConstantInfo → Prop)
    (hstep : ∀ (ci : ConstantInfo) (g : String) (names : List String),
      (g = "" ∨ TitleCased caseTable g) → P ci → P (ci.append g names))
    (bs : List Block) (ci : ConstantInfo) (hP : P ci) :
    P (bs.foldl (visitBlock caseTable) ci) := by
  induction bs generalizing ci with
  | nil => exact hP
  | cons b bs ih =>
    rw [List.foldl_cons]
    apply ih
    rw [visitBlock, visitGenDecl_const]
    exact specLoop_induction caseTable P hstep b.Doc b.Specs ("", ci) (Or.inl rfl) hP

/-- Whatever every append under an empty or title-cased group preserves holds
after `parseConstants` when it held before. -/
theorem parseConstants_induction (caseTable : Char → Char) (P : ConstantInfo → Prop)
    (hstep : ∀ (ci : ConstantInfo) (g : String) (names : List String),
      (g = "" ∨ TitleCased caseTable g) → P ci → P (ci.append g names))
    (g : Generator) (hP : P g.constantInfo) :
    P (g.parseConstants caseTable).constantInfo := by
  rw [parseConstants_eq_foldl]
  exact foldl_visitBlock_induction caseTable P hstep _ _ hP

/-! ## C3: every group is a subsequence of the symbol list -/

theorem GroupMap.get_eq_nil_or_mem (m : GroupMap) (k : String) :
    m.get k = [] ∨ (k, m.get k) ∈ m := by
  by_cases h : k ∈ m.keys
  · exact Or.inr (GroupMap.mem_of_mem_keys h)
  · exact Or.inl (GroupMap.get_of_not_mem_keys h)

theorem append_sublist_step (ci : ConstantInfo) (g : String) (names : List String)
    (h : ∀ p ∈ ci.Groups, p.2.Sublist ci.Constants) :
    ∀ p ∈ (ci.append g names).Groups, p.2.Sublist (ci.append g names).Constants := by
  intro p hp
  simp only [ConstantInfo.append] at hp ⊢
  split at hp
  · exact (h p hp).trans (List.sublist_append_left _ _)
  · rcases GroupMap.mem_set hp with hp | hp
    · rw [hp]
      simp only
      rcases GroupMap.get_eq_nil_or_mem ci.Groups g with h0 | h0
      · rw [h0]
        exact List.sublist_append_right _ _
      · exact List.Sublist.append (h _ h0) (List.Sublist.refl _)
    · exact (h p hp).trans (List.sublist_append_left _ _)

/-- C3. After `parseConstants` (from the empty table `main` builds) the member
list of every group is a subsequence of `Constants`: its elements occur there
in the same relative order.  In particular every name of a group's member list
appears in `Constants`. -/
theorem groups_sublist_Constants (caseTable : Char → Char) (pkg : Package) (T : String) :
    (∀ p ∈ ((newGenerator pkg T).parseConstants caseTable).constantInfo.Groups,
        p.2.Sublist ((newGenerator pkg T).parseConstants caseTable).constantInfo.Constants)
      ∧ (∀ (k name : String),
          name ∈ ((newGenerator pkg T).parseConstants caseTable).constantInfo.Groups.get k →
          name ∈ ((newGenerator pkg T).parseConstants caseTable).constantInfo.Constants) := by
  have hinv := parseConstants_induction caseTable
    (fun ci => ∀ p ∈ ci.Groups, p.2.Sublist ci.Constants)
    (fun ci g names _ h => append_sublist_step ci g names h)
    (newGenerator pkg T) (by intro p hp; simp [newGenerator] at hp)
  refine ⟨hinv, ?_⟩
  intro k name hname
  rcases GroupMap.get_eq_nil_or_mem
    ((newGenerator pkg T).parseConstants caseTable).constantInfo.Groups k with h0 | h0
  · rw [h0] at hname
    simp at hname
  · exact (hinv _ h0).subset hname

/-! ## C5: the cursor does not outlive its block -/

theorem specLoop_no_group (caseTable : Char → Char) (declDoc : Option CommentGroup)
    (specs : List Spec) (ci : ConstantInfo)
    (h : ∀ spec ∈ specs, (applicableDoc declDoc spec).bind (docGroup caseTable) = none) :
    specLoop caseTable declDoc specs ("", ci)
      = ("", ci.append "" ((specs.filter (hasExplicitType ci.Typ)).flatMap Spec.names)) := by
  induction specs generalizing ci with
  | nil => simp [specLoop, ConstantInfo.append_nil]
  | cons x xs ih =>
    have hx := h x (List.mem_cons_self _ _)
    have hxs : ∀ spec ∈ xs, (applicableDoc declDoc spec).bind (docGroup caseTable) = none :=
      fun s hs => h s (List.mem_cons_of_mem _ hs)
    rw [specLoop_cons, visitSpec_eq, hx]
    by_cases he : hasExplicitType ci.Typ x = true
    · by_cases hn : x.names = []
      · simp only [typeMatching, he, hn, List.isEmpty_nil, Bool.not_true, Bool.and_false,
          Bool.false_eq_true, if_false]
        rw [ih ci hxs]
        simp [List.filter_cons, he, hn]
      · have hm : typeMatching ci.Typ x = true := by simp [typeMatching, he, hn]
        simp only [hm, if_true, Option.getD_none]
        rw [ih _ hxs, ConstantInfo.append_append, ConstantInfo.append_Typ]
        simp [List.filter_cons, he]
    · have hm : typeMatching ci.Typ x = false := by simp [typeMatching, he]
      simp only [hm, Bool.false_eq_true, if_false]
      rw [ih ci hxs]
      simp [List.filter_cons, he]

/-- C5, refuted as stated.  In the package of `const ( A T = 0 )` with
`// @group X` on `A` followed by `const ( B T = 1 )` without annotation, `B`
is not appended to the group `X`, whatever the case tables are. -/
theorem cursor_persists_counterexample :
    ¬ ∃ caseTable : Char → Char,
      "B" ∈ ((newGenerator resetPackage "T").parseConstants caseTable).constantInfo.Groups.get "X" := by
  rintro ⟨caseTable, h⟩
  have hG : ((newGenerator resetPackage "T").parseConstants caseTable).constantInfo.Groups
      = [("X", ["A"])] := rfl
  rw [hG] at h
  simp [GroupMap.get] at h

/-- C5, amended.  `parseConstants` runs the callback body on the const blocks
one after the other, handing on the symbol table only: the cursor
`currentGroup` starts empty in every block.  So a block none of whose
applicable comments names a group leaves `Groups` as the earlier blocks left
it, and only appends its type-matching names to `Constants`. -/
theorem cursor_reset_per_block (caseTable : Char → Char) (g : Generator) (b : Block)
    (ci : ConstantInfo)
    (h : ∀ spec ∈ b.Specs, (applicableDoc b.Doc spec).bind (docGroup caseTable) = none) :
    (g.parseConstants caseTable).constantInfo
        = g.pkg.constBlocks.foldl (visitBlock caseTable) g.constantInfo
      ∧ (visitBlock caseTable ci b).Groups = ci.Groups
      ∧ (visitBlock caseTable ci b).Constants = ci.Constants ++ b.typedNames ci.Typ := by
  refine ⟨parseConstants_eq_foldl caseTable g, ?_, ?_⟩
  · rw [visitBlock, visitGenDecl_const, specLoop_no_group caseTable b.Doc b.Specs ci h]
    exact ConstantInfo.append_empty_group _ _
  · rw [visitBlock, visitGenDecl_const, specLoop_no_group caseTable b.Doc b.Specs ci h]
    rfl

/-- C5, amended, at a concrete input: after a block has set the group `X`, a
block `const ( B T = 1 )` without annotation adds `B` to `Constants` only. -/
theorem cursor_reset_per_block_witness :
    (visitBlock (fun r => r)
        { Typ := "T", Constants := ["A"], HasIntValues := false, Groups := [("X", ["A"])] }
        { Doc := none, Specs := [typedSpec "T" ["B"] []] }).Groups = [("X", ["A"])]
      ∧ (visitBlock (fun r => r)
        { Typ := "T", Constants := ["A"], HasIntValues := false, Groups := [("X", ["A"])] }
        { Doc := none, Specs := [typedSpec "T" ["B"] []] }).Constants = ["A", "B"] :=
  (cursor_reset_per_block (fun r => r) (newGenerator resetPackage "T")
    { Doc := none, Specs := [typedSpec "T" ["B"] []] }
    { Typ := "T", Constants := ["A"], HasIntValues := false, Groups := [("X", ["A"])] }
    (by decide)).2

/-! ## C6: `margin` and `Margin` are one group -/

theorem constBlocksList_map_toNode (bs : List Block) :
    constBlocksList (bs.map Block.toNode) = bs := by
  induction bs with
  | nil => rfl
  | cons b bs ih =>
    simp only [List.map_cons, constBlocksList, Block.toNode, constBlocks, if_true, ih]
    rfl

theorem blocksPackage_constBlocks (bs : List Block) : (blocksPackage bs).constBlocks = bs := by
  simp [blocksPackage, Package.constBlocks, constBlocksList_map_toNode]

/-- C6. Two const blocks, one under the doc comment `// @group margin` and one
under `// @group Margin` (in either order), produce one group key, `Margin`,
whose member list is the type-matching names of the first block followed by
those of the second (no key at all when neither block declares such a name). -/
theorem margin_case_normalization (caseTable : Char → Char) (T : String)
    (specs1 specs2 : List Spec) :
    ((newGenerator (blocksPackage [⟨some marginLower, specs1⟩, ⟨some marginUpper, specs2⟩]) T
        ).parseConstants caseTable).constantInfo.Groups
        = (if Block.typedNames T ⟨some marginLower, specs1⟩
              ++ Block.typedNames T ⟨some marginUpper, specs2⟩ = [] then []
           else [("Margin", Block.typedNames T ⟨some marginLower, specs1⟩
              ++ Block.typedNames T ⟨some marginUpper, specs2⟩)])
      ∧ ((newGenerator (blocksPackage [⟨some marginUpper, specs1⟩, ⟨some marginLower, specs2⟩]) T
        ).parseConstants caseTable).constantInfo.Groups
        = (if Block.typedNames T ⟨some marginUpper, specs1⟩
              ++ Block.typedNames T ⟨some marginLower, specs2⟩ = [] then []
           else [("Margin", Block.typedNames T ⟨some marginUpper, specs1⟩
              ++ Block.typedNames T ⟨some marginLower, specs2⟩)]) := by
  have hl : docGroup caseTable marginLower = some "Margin" := rfl
  have hu : docGroup caseTable marginUpper = some "Margin" := rfl
  constructor
  · rw [parseConstants_eq_foldl]
    simp only [newGenerator, blocksPackage_constBlocks, List.foldl_cons, List.foldl_nil,
      visitBlock, visitGenDecl_const, specLoop_some, hl, hu, Option.getD_some,
      ConstantInfo.append_append, ConstantInfo.append_Typ, Block.typedNames]
    simp [ConstantInfo.append, GroupMap.set, GroupMap.get]
  · rw [parseConstants_eq_foldl]
    simp only [newGenerator, blocksPackage_constBlocks, List.foldl_cons, List.foldl_nil,
      visitBlock, visitGenDecl_const, specLoop_some, hl, hu, Option.getD_some,
      ConstantInfo.append_append, ConstantInfo.append_Typ, Block.typedNames]
    simp [ConstantInfo.append, GroupMap.set, GroupMap.get]

/-! ## C7: the keys of `Groups` -/

theorem append_keys_step (caseTable : Char → Char) (ci : ConstantInfo) (g : String)
    (names : List String) (hg : g = "" ∨ TitleCased caseTable g)
    (h : ∀ k ∈ ci.Groups.keys, TitleCased caseTable k) :
    ∀ k ∈ (ci.append g names).Groups.keys, TitleCased caseTable k := by
  intro k hk
  simp only [ConstantInfo.append] at hk
  split at hk
  · exact h k hk
  · rename_i hne
    rw [GroupMap.keys_set] at hk
    split at hk
    · exact h k hk
    · rw [List.mem_append, List.mem_singleton] at hk
      rcases hk with hk | hk
      · exact h k hk
      · rcases hg with hg | hg
        · exact absurd (Or.inl hg) hne
        · rw [hk]
          exact hg

/-- C7, refuted as stated.  The doc comment `// @group 1st` makes `1st` a key
of `Groups`, and `1` is not an uppercase letter (not even when every character
beyond ASCII is counted as one), whatever the case tables are. -/
theorem keys_uppercase_counterexample :
    ¬ ∃ caseTable : Char → Char,
      ∀ k ∈ ((newGenerator digitPackage "T").parseConstants caseTable).constantInfo.Groups.keys,
        startsWithUpperLetter k = true := by
  rintro ⟨caseTable, h⟩
  have hG : ((newGenerator digitPackage "T").parseConstants caseTable).constantInfo.Groups.keys
      = ["1st"] := rfl
  rw [hG] at h
  have h1 := h "1st" (List.mem_singleton.mpr rfl)
  revert h1
  decide

/-- C7, amended.  After `parseConstants` every key of `Groups` is a non-empty
string whose first character is the image of a character under
`unicode.ToUpper` (an uppercase letter when the name starts with a letter that
has one, the unchanged digit or sign otherwise); the empty string is never a
key. -/
theorem keys_title_cased (caseTable : Char → Char) (pkg : Package) (T : String) :
    (∀ k ∈ ((newGenerator pkg T).parseConstants caseTable).constantInfo.Groups.keys,
        TitleCased caseTable k ∧ k ≠ "")
      ∧ "" ∉ ((newGenerator pkg T).parseConstants caseTable).constantInfo.Groups.keys := by
  have hinv := parseConstants_induction caseTable
    (fun ci => ∀ k ∈ ci.Groups.keys, TitleCased caseTable k)
    (fun ci g names hg h => append_keys_step caseTable ci g names hg h)
    (newGenerator pkg T) (by intro k hk; simp [newGenerator, GroupMap.keys] at hk)
  refine ⟨fun k hk => ⟨hinv k hk, (hinv k hk).ne_empty⟩, ?_⟩
  intro hk
  exact (hinv "" hk).ne_empty rfl

/-! ## C8: `Constants` is not deduplicated -/

/-- C8, refuted as stated.  For `const ( _ T = 0; _ T = 1 )` the list
`Constants` holds the blank identifier twice, whatever the case tables are. -/
theorem constants_nodup_counterexample :
    ¬ ∃ caseTable : Char → Char,
      ((newGenerator blankPackage "T").parseConstants caseTable).constantInfo.Constants.Nodup := by
  rintro ⟨caseTable, h⟩
  have hC : ((newGenerator blankPackage "T").parseConstants caseTable).constantInfo.Constants
      = ["_", "_"] := rfl
  rw [hC] at h
  revert h
  decide

/-- C8, amended.  `Constants` holds every name once for each of its
declarations by a type-matching spec, nothing being dropped: a name occurs in
`Constants` as often as the type-matching specs declare it, and `Constants` is
free of duplicates exactly when those specs declare pairwise distinct names. -/
theorem constants_count (caseTable : Char → Char) (pkg : Package) (T : String) :
    (∀ name : String,
        ((newGenerator pkg T).parseConstants caseTable).constantInfo.Constants.count name
          = (pkg.typedNames T).count name)
      ∧ (((newGenerator pkg T).parseConstants caseTable).constantInfo.Constants.Nodup
          ↔ (pkg.typedNames T).Nodup) := by
  have hC : ((newGenerator pkg T).parseConstants caseTable).constantInfo.Constants
      = pkg.typedNames T := by
    rw [parseConstants_eq_foldl, foldl_visitBlock_Constants]
    simp [newGenerator, Package.typedNames]
  rw [hC]
  exact ⟨fun _ => rfl, Iff.rfl⟩

/-! ## C9: a name and its groups -/

theorem GroupMap.count_members_set (m : GroupMap) (k : String) (ns : List String)
    (a : String) :
    (GroupMap.members (m.set k (m.get k ++ ns))).count a
      = (GroupMap.members m).count a + ns.count a := by
  induction m with
  | nil => simp [GroupMap.set, GroupMap.get, GroupMap.members]
  | cons p rest ih =>
    obtain ⟨k0, v0⟩ := p
    simp only [GroupMap.members] at ih
    by_cases h : k0 = k
    · simp only [GroupMap.set, GroupMap.get, h, if_true, GroupMap.members, List.flatMap_cons,
        List.count_append]
      omega
    · simp only [GroupMap.set, GroupMap.get, h, if_false, GroupMap.members, List.flatMap_cons,
        List.count_append, ih]
      omega

theorem GroupMap.two_le_count_members {m : GroupMap} {p q : String × List String}
    {a : String} (hp : p ∈ m) (hq : q ∈ m) (hne : p ≠ q) (hap : a ∈ p.2) (haq : a ∈ q.2) :
    2 ≤ (GroupMap.members m).count a := by
  have hmem : ∀ (l : GroupMap) (x : String × List String), x ∈ l → a ∈ x.2 →
      1 ≤ (GroupMap.members l).count a := by
    intro l x hx hax
    have : a ∈ GroupMap.members l := by
      simp only [GroupMap.members, List.mem_flatMap]
      exact ⟨x, hx, hax⟩
    exact List.count_pos_iff.mpr this
  induction m with
  | nil => simp at hp
  | cons x xs ih =>
    simp only [GroupMap.members, List.flatMap_cons, List.count_append]
    have hx : ∀ y : String × List String, y = x → a ∈ y.2 → 1 ≤ x.2.count a := by
      intro y hy hay
      rw [← hy]
      exact List.count_pos_iff.mpr hay
    rcases List.mem_cons.mp hp with hp | hp <;> rcases List.mem_cons.mp hq with hq | hq
    · exact absurd (hp.trans hq.symm) hne
    · have h1 := hx p hp hap
      have h2 := hmem xs q hq haq
      simp only [GroupMap.members] at h2
      omega
    · have h1 := hx q hq haq
      have h2 := hmem xs p hp hap
      simp only [GroupMap.members] at h2
      omega
    · have h2 := ih hp hq
      simp only [GroupMap.members] at h2
      omega

theorem append_count_step (ci : ConstantInfo) (g : String) (names : List String)
    (h : ∀ a, (GroupMap.members ci.Groups).count a ≤ ci.Constants.count a) :
    ∀ a, (GroupMap.members (ci.append g names).Groups).count a
      ≤ (ci.append g names).Constants.count a := by
  intro a
  have ha := h a
  simp only [ConstantInfo.append]
  split
  · rw [List.count_append]
    omega
  · rw [GroupMap.count_members_set, List.count_append]
    omega

theorem ConstantInfo.mem_get_append {ci : ConstantInfo} {g : String} {names : List String}
    {name k : String} (h : name ∈ (ci.append g names).Groups.get k) :
    name ∈ ci.Groups.get k ∨ (k = g ∧ name ∈ names) := by
  simp only [ConstantInfo.append] at h
  split at h
  · exact Or.inl h
  · by_cases hk : k = g
    · subst hk
      rw [GroupMap.get_set_self, List.mem_append] at h
      rcases h with h | h
      · exact Or.inl h
      · exact Or.inr ⟨rfl, h⟩
    · rw [GroupMap.get_set_of_ne _ _ hk] at h
      exact Or.inl h

theorem visitBlock_none_declared (caseTable : Char → Char) (specs : List Spec)
    (ci : ConstantInfo) (name k : String)
    (h : name ∈ (visitGenDecl caseTable none Token.CONST specs ci).Groups.get k) :
    name ∈ ci.Groups.get k
      ∨ DeclaredUnder caseTable ci.Typ { Doc := none, Specs := specs } name k := by
  induction specs using List.reverseRecOn with
  | nil =>
    left
    simpa [visitGenDecl] using h
  | append_singleton pre spec ih =>
    rw [visitGenDecl_none_snoc] at h
    have lift : DeclaredUnder caseTable ci.Typ { Doc := none, Specs := pre } name k →
        DeclaredUnder caseTable ci.Typ { Doc := none, Specs := pre ++ [spec] } name k := by
      rintro ⟨p1, s, p2, hsplit, hm, hn, hg⟩
      refine ⟨p1, s, p2 ++ [spec], ?_, hm, hn, hg⟩
      simp only at hsplit ⊢
      rw [hsplit]
      simp
    split at h
    · rename_i hm
      rcases ConstantInfo.mem_get_append h with h1 | ⟨hk, hn⟩
      · rcases ih h1 with h2 | h2
        · exact Or.inl h2
        · exact Or.inr (lift h2)
      · right
        exact ⟨pre, spec, [], rfl, hm, hn, hk.symm⟩
    · rcases ih h with h2 | h2
      · exact Or.inl h2
      · exact Or.inr (lift h2)

theorem visitBlock_some_declared (caseTable : Char → Char) (d : CommentGroup)
    (specs : List Spec) (ci : ConstantInfo) (name k : String)
    (h : name ∈ (visitGenDecl caseTable (some d) Token.CONST specs ci).Groups.get k) :
    name ∈ ci.Groups.get k
      ∨ DeclaredUnder caseTable ci.Typ { Doc := some d, Specs := specs } name k := by
  rw [visitGenDecl_const, specLoop_some] at h
  rcases ConstantInfo.mem_get_append h with h1 | ⟨hk, hn⟩
  · exact Or.inl h1
  · right
    rw [List.mem_flatMap] at hn
    obtain ⟨spec, hspec, hname⟩ := hn
    rw [List.mem_filter] at hspec
    obtain ⟨pre, post, hsplit⟩ := List.append_of_mem hspec.1
    refine ⟨pre, spec, post, hsplit, ?_, hname, hk.symm⟩
    have hne : spec.names ≠ [] := List.ne_nil_of_mem hname
    simp [typeMatching, hspec.2, hne]

theorem visitBlock_declared (caseTable : Char → Char) (b : Block) (ci : ConstantInfo)
    (name k : String) (h : name ∈ (visitBlock caseTable ci b).Groups.get k) :
    name ∈ ci.Groups.get k ∨ DeclaredUnder caseTable ci.Typ b name k := by
  obtain ⟨doc, specs⟩ := b
  cases doc with
  | none => exact visitBlock_none_declared caseTable specs ci name k h
  | some d => exact visitBlock_some_declared caseTable d specs ci name k h

theorem foldl_visitBlock_declared (caseTable : Char → Char) (bs : List Block)
    (ci : ConstantInfo) (name k : String)
    (h : name ∈ (bs.foldl (visitBlock caseTable) ci).Groups.get k) :
    name ∈ ci.Groups.get k ∨ ∃ b ∈ bs, DeclaredUnder caseTable ci.Typ b name k := by
  induction bs generalizing ci with
  | nil => exact Or.inl h
  | cons b bs ih =>
    rw [List.foldl_cons] at h
    rcases ih _ h with h1 | ⟨b1, hb1, hd⟩
    · rcases visitBlock_declared caseTable b ci name k h1 with h2 | h2
      · exact Or.inl h2
      · exact Or.inr ⟨b, List.mem_cons_self _ _, h2⟩
    · rw [visitBlock_Typ] at hd
      exact Or.inr ⟨b1, List.mem_cons_of_mem _ hb1, hd⟩

/-- C9, refuted as stated.  For `const ( _ T = 0; _ T = 1 )` with
`// @group X` on the first spec and `// @group Y` on the second, the name `_`
is in the member lists of both groups, whatever the case tables are. -/
theorem one_group_counterexample :
    ¬ ∃ caseTable : Char → Char,
      AtMostOneGroup ((newGenerator blankGroupsPackage "T").parseConstants caseTable).constantInfo := by
  rintro ⟨caseTable, h⟩
  have hG : ((newGenerator blankGroupsPackage "T").parseConstants caseTable).constantInfo.Groups
      = [("X", ["_"]), ("Y", ["_"])] := rfl
  have hXY := h "_" "X" "Y" (by rw [hG]; decide) (by rw [hG]; decide)
  revert hXY
  decide

/-- C9, amended.  Every declaration of a name by a type-matching spec puts the
name into at most one group: over all member lists together a name occurs at
most as often as in `Constants`.  So when no name is declared twice by
type-matching specs (`Constants` has no duplicate), a name appears in the
member list of at most one group.  A name in the member list of a group is
declared, in some const block, by a type-matching member at which that group is
in force: the group the block comment names or, in a block without doc
comment, the one most recently named at or before the member. -/
theorem one_group_of_nodup (caseTable : Char → Char) (pkg : Package) (T : String) :
    (∀ a : String,
        (GroupMap.members ((newGenerator pkg T).parseConstants caseTable).constantInfo.Groups).count a
          ≤ ((newGenerator pkg T).parseConstants caseTable).constantInfo.Constants.count a)
      ∧ ((pkg.typedNames T).Nodup →
          AtMostOneGroup ((newGenerator pkg T).parseConstants caseTable).constantInfo)
      ∧ (∀ name k : String,
          name ∈ ((newGenerator pkg T).parseConstants caseTable).constantInfo.Groups.get k →
          ∃ b ∈ pkg.constBlocks, DeclaredUnder caseTable T b name k) := by
  have hinv := parseConstants_induction caseTable
    (fun ci => ∀ a, (GroupMap.members ci.Groups).count a ≤ ci.Constants.count a)
    (fun ci g names _ h => append_count_step ci g names h)
    (newGenerator pkg T) (by intro a; simp [newGenerator, GroupMap.members])
  refine ⟨hinv, ?_, ?_⟩
  rotate_left
  · intro name k h
    rw [parseConstants_eq_foldl] at h
    rcases foldl_visitBlock_declared caseTable _ _ name k h with h1 | h1
    · simp [newGenerator, GroupMap.get] at h1
    · exact h1
  intro hnd name k1 k2 h1 h2
  have hC : ((newGenerator pkg T).parseConstants caseTable).constantInfo.Constants
      = pkg.typedNames T := by
    rw [parseConstants_eq_foldl, foldl_visitBlock_Constants]
    simp [newGenerator, Package.typedNames]
  by_contra hne
  have hle := hinv name
  rw [hC] at hle
  have h1le : (pkg.typedNames T).count name ≤ 1 := List.nodup_iff_count_le_one.mp hnd name
  have hm1 : (k1, ((newGenerator pkg T).parseConstants caseTable).constantInfo.Groups.get k1)
      ∈ ((newGenerator pkg T).parseConstants caseTable).constantInfo.Groups := by
    rcases GroupMap.get_eq_nil_or_mem
      ((newGenerator pkg T).parseConstants caseTable).constantInfo.Groups k1 with h0 | h0
    · rw [h0] at h1
      simp at h1
    · exact h0
  have hm2 : (k2, ((newGenerator pkg T).parseConstants caseTable).constantInfo.Groups.get k2)
      ∈ ((newGenerator pkg T).parseConstants caseTable).constantInfo.Groups := by
    rcases GroupMap.get_eq_nil_or_mem
      ((newGenerator pkg T).parseConstants caseTable).constantInfo.Groups k2 with h0 | h0
    · rw [h0] at h2
      simp at h2
    · exact h0
  have h2le := GroupMap.two_le_count_members hm1 hm2
    (by intro he; exact hne (congrArg Prod.fst he)) h1 h2
  omega

/-- C9, amended, at a concrete input: in the annotation-persistence block the
four names are distinct, so no name is in two groups. -/
theorem one_group_of_nodup_witness :
    ((blocksPackage [⟨none, persistenceSpecs⟩]).typedNames "T").Nodup
      ∧ AtMostOneGroup
          ((newGenerator (blocksPackage [⟨none, persistenceSpecs⟩]) "T").parseConstants
            (fun r => r)).constantInfo :=
  ⟨by decide,
    (one_group_of_nodup (fun r => r) (blocksPackage [⟨none, persistenceSpecs⟩]) "T").2.1
      (by decide)⟩

/-! ## C10: the last matching line wins -/

theorem lineGroup_of_FindStringSubmatch {caseTable : Char → Char} {text whole name : String}
    (h : FindStringSubmatch text = [whole, name]) :
    lineGroup caseTable text = some (toTitleCase caseTable (TrimSpace name)) := by
  unfold FindStringSubmatch at h
  unfold lineGroup
  cases hm : groupRegexMatch text.data with
  | none => simp [hm] at h
  | some wn =>
    obtain ⟨w, n⟩ := wn
    simp only [hm, List.cons.injEq, and_true] at h
    simp only [h.2]

theorem lineGroup_of_FindStringSubmatch_nil {caseTable : Char → Char} {text : String}
    (h : FindStringSubmatch text = []) : lineGroup caseTable text = none := by
  unfold FindStringSubmatch at h
  unfold lineGroup
  cases hm : groupRegexMatch text.data with
  | none => rfl
  | some wn =>
    obtain ⟨w, n⟩ := wn
    simp [hm] at h

theorem docGroup_last_match (caseTable : Char → Char) (pre post : List Comment) (c : Comment)
    (whole name : String) (hc : FindStringSubmatch c.Text = [whole, name])
    (hpost : ∀ c1 ∈ post, FindStringSubmatch c1.Text = []) :
    docGroup caseTable ⟨pre ++ c :: post⟩ = some (toTitleCase caseTable (TrimSpace name)) := by
  unfold docGroup
  have hp : post.filterMap (fun comment => lineGroup caseTable comment.Text) = [] := by
    rw [List.filterMap_eq_nil_iff]
    intro c1 h1
    exact lineGroup_of_FindStringSubmatch_nil (hpost c1 h1)
  simp only [List.filterMap_append, List.filterMap_cons, lineGroup_of_FindStringSubmatch hc, hp]
  simp

/-- C10. When the comment that applies to a type-matching member has a line
matching the group pattern, followed only by lines that do not match, the
member is handled under the group that line names (capture trimmed and
title-cased), whatever the lines before it are and whatever group was in force:
the resulting cursor and symbol table do not depend on earlier matching lines. -/
theorem last_group_line_wins (caseTable : Char → Char) (declDoc : Option CommentGroup)
    (spec : Spec) (st : String × ConstantInfo) (pre post : List Comment) (c : Comment)
    (whole name : String)
    (hm : typeMatching st.2.Typ spec = true)
    (hdoc : applicableDoc declDoc spec = some ⟨pre ++ c :: post⟩)
    (hc : FindStringSubmatch c.Text = [whole, name])
    (hpost : ∀ c1 ∈ post, FindStringSubmatch c1.Text = []) :
    visitSpec caseTable declDoc spec st
      = (toTitleCase caseTable (TrimSpace name),
          st.2.append (toTitleCase caseTable (TrimSpace name)) spec.names) := by
  rw [visitSpec_eq, hdoc]
  simp [hm, docGroup_last_match caseTable pre post c whole name hc hpost]

/-- C10 at a concrete input: `A T = 0` under `// @group X` and `// @group Y`
goes to `Y`, and `X` is not a key of `Groups`. -/
theorem last_group_line_wins_witness :
    visitSpec (fun r => r) none twoLineSpec ("", emptyInfo "T")
      = ("Y", { Typ := "T", Constants := ["A"], HasIntValues := false,
                Groups := [("Y", ["A"])] }) :=
  (last_group_line_wins (fun r => r) none twoLineSpec ("", emptyInfo "T")
    [⟨"// @group X"⟩] [] ⟨"// @group Y"⟩ "// @group Y" "Y"
    (by decide) (by rfl) (by rfl) (by intro c1 h1; cases h1)).trans (by rfl)

/-! ## The general statements at concrete inputs -/

/-- C2 at a concrete input: in `const ( A T = 0; B T = 1 )` without any
annotation no group changes, and an untyped member `C` with a doc comment
`// @group X` in front of `B` changes nothing. -/
theorem annotation_persistence_witness :
    (visitGenDecl (fun r => r) none Token.CONST
        ([typedSpec "T" ["A"] []] ++ [typedSpec "T" ["B"] []]) (emptyInfo "T")).Groups = []
      ∧ visitGenDecl (fun r => r) none Token.CONST
          ([typedSpec "T" ["A"] []]
            ++ Spec.value ⟨some ⟨[⟨"// @group X"⟩]⟩, ["C"], none⟩ :: [typedSpec "T" ["B"] []])
          (emptyInfo "T")
        = visitGenDecl (fun r => r) none Token.CONST
          ([typedSpec "T" ["A"] []] ++ [typedSpec "T" ["B"] []]) (emptyInfo "T") :=
  ⟨(annotation_persistence (fun r => r) [typedSpec "T" ["A"] []] (typedSpec "T" ["B"] [])
      (emptyInfo "T")).2.1 (by decide),
   (annotation_persistence (fun r => r) [typedSpec "T" ["A"] []]
      (Spec.value ⟨some ⟨[⟨"// @group X"⟩]⟩, ["C"], none⟩) (emptyInfo "T")).2.2.1 (by decide)
      [typedSpec "T" ["B"] []]⟩

/-- C3 at a concrete input: `B`, a member of the group `X` of the
annotation-persistence block, is in `Constants`. -/
theorem groups_sublist_Constants_witness :
    "B" ∈ ((newGenerator persistencePackage "T").parseConstants (fun r => r)).constantInfo.Constants :=
  (groups_sublist_Constants (fun r => r) persistencePackage "T").2 "X" "B" (by decide)

/-- C7, amended, at a concrete input: the key `Y` of the annotation-persistence
block starts with the image of a character under `unicode.ToUpper`. -/
theorem keys_title_cased_witness :
    TitleCased (fun r => r) "Y" ∧ "Y" ≠ "" :=
  (keys_title_cased (fun r => r) persistencePackage "T").1 "Y" (by decide)

/-! ## C12: `toTitleCase` -/

theorem toNat_ofNat_ascii (n : Nat) (h : n < 128) : (Char.ofNat n).toNat = n := by
  interval_cases n <;> rfl

theorem unicodeToUpper_ascii_fixed (caseTable : Char → Char) (r : Char) (h : r.toNat ≤ 127) :
    unicodeToUpper caseTable (unicodeToUpper caseTable r) = unicodeToUpper caseTable r := by
  by_cases hl : 97 ≤ r.toNat ∧ r.toNat ≤ 122
  · have hu : unicodeToUpper caseTable r = Char.ofNat (r.toNat - 32) := by
      simp [unicodeToUpper, h, hl]
    have hn : (Char.ofNat (r.toNat - 32)).toNat = r.toNat - 32 :=
      toNat_ofNat_ascii _ (by omega)
    rw [hu]
    have h1 : (Char.ofNat (r.toNat - 32)).toNat ≤ 127 := by omega
    have h2 : ¬ (97 ≤ (Char.ofNat (r.toNat - 32)).toNat
        ∧ (Char.ofNat (r.toNat - 32)).toNat ≤ 122) := by omega
    simp only [unicodeToUpper, h1, h2, if_true, if_false]
  · have hu : unicodeToUpper caseTable r = r := by
      simp only [unicodeToUpper, h, hl, if_true, if_false]
    rw [hu, hu]

theorem toTitleCase_data (caseTable : Char → Char) (s : String) :
    (toTitleCase caseTable s).data =
      match s.data with
      | [] => []
      | r :: rest => unicodeToUpper caseTable r :: rest := by
  unfold toTitleCase
  cases h : s.data with
  | nil => simp [h]
  | cons r rest => simp

/-- C12. `toTitleCase(s)` is `s` with its first character replaced by the
image of that character under `unicode.ToUpper` and every other character
unchanged; `toTitleCase("")` is `""`; the number of characters is preserved;
and `toTitleCase` is idempotent: without further assumption on a string that
starts with an ASCII character, and on every string as soon as the case tables
of the library map each of their values to itself. -/
theorem toTitleCase_spec (caseTable : Char → Char) (s : String) :
    ((toTitleCase caseTable s).data =
        match s.data with
        | [] => []
        | r :: rest => unicodeToUpper caseTable r :: rest)
      ∧ toTitleCase caseTable "" = ""
      ∧ (toTitleCase caseTable s).length = s.length
      ∧ ((∀ r : Char, 127 < r.toNat →
            unicodeToUpper caseTable (caseTable r) = caseTable r) →
          toTitleCase caseTable (toTitleCase caseTable s) = toTitleCase caseTable s)
      ∧ ((∀ r ∈ s.data.head?, r.toNat ≤ 127) →
          toTitleCase caseTable (toTitleCase caseTable s) = toTitleCase caseTable s) := by
  have hidem : (∀ r ∈ s.data.head?,
      unicodeToUpper caseTable (unicodeToUpper caseTable r) = unicodeToUpper caseTable r) →
      toTitleCase caseTable (toTitleCase caseTable s) = toTitleCase caseTable s := by
    intro h
    apply String.ext
    rw [toTitleCase_data caseTable (toTitleCase caseTable s), toTitleCase_data caseTable s]
    cases hs : s.data with
    | nil => rfl
    | cons r rest =>
      have hr := h r (by simp [hs])
      simp [hr]
  refine ⟨toTitleCase_data caseTable s, rfl, ?_, ?_, ?_⟩
  · have hd := toTitleCase_data caseTable s
    rw [String.length, hd, String.length]
    cases s.data <;> rfl
  · intro htable
    apply hidem
    intro r _
    by_cases hr : r.toNat ≤ 127
    · exact unicodeToUpper_ascii_fixed caseTable r hr
    · have hu : unicodeToUpper caseTable r = caseTable r := by
        simp [unicodeToUpper, hr]
      rw [hu]
      exact htable r (by omega)
  · intro hascii
    apply hidem
    intro r hr
    exact unicodeToUpper_ascii_fixed caseTable r (hascii r hr)

/-- C12 at a concrete input: with case tables that leave the characters
beyond ASCII alone, title-casing `margin` a second time changes nothing. -/
theorem toTitleCase_spec_witness :
    toTitleCase (fun r => r) (toTitleCase (fun r => r) "margin")
      = toTitleCase (fun r => r) "margin" :=
  (toTitleCase_spec (fun r => r) "margin").2.2.2.1
    (by intro r hr; simp [unicodeToUpper]; omega)

/-! ## C11: names that differ in case -/

/-- C11, refuted as stated.  The doc comments `// @group margin` and
`// @group MARGIN` name two groups: the constant `B` declared under the second
does not join `A` in the group `Margin`, whatever the case tables are. -/
theorem case_collapse_counterexample :
    ¬ ∃ caseTable : Char → Char,
      "B" ∈ ((newGenerator upperCasePackage "T").parseConstants caseTable).constantInfo.Groups.get
        "Margin" := by
  rintro ⟨caseTable, h⟩
  have hG : ((newGenerator upperCasePackage "T").parseConstants caseTable).constantInfo.Groups
      = [("Margin", ["A"]), ("MARGIN", ["B"])] := rfl
  rw [hG] at h
  revert h
  decide

theorem toTitleCase_eq_iff_aux (caseTable : Char → Char) (s1 s2 : String) :
    toTitleCase caseTable s1 = toTitleCase caseTable s2 ↔
      (s1 = "" ∧ s2 = "")
        ∨ ∃ r1 r2 rest, s1.data = r1 :: rest ∧ s2.data = r2 :: rest
            ∧ unicodeToUpper caseTable r1 = unicodeToUpper caseTable r2 := by
  have hd1 := toTitleCase_data caseTable s1
  have hd2 := toTitleCase_data caseTable s2
  constructor
  · intro h
    rw [h] at hd1
    rw [hd1] at hd2
    cases h1 : s1.data with
    | nil =>
      cases h2 : s2.data with
      | nil => exact Or.inl ⟨String.ext h1, String.ext h2⟩
      | cons r2 t2 => simp [h1, h2] at hd2
    | cons r1 t1 =>
      cases h2 : s2.data with
      | nil => simp [h1, h2] at hd2
      | cons r2 t2 =>
        simp only [h1, h2, List.cons.injEq] at hd2
        exact Or.inr ⟨r1, r2, t1, rfl, by rw [hd2.2], hd2.1⟩
  · rintro (⟨h1, h2⟩ | ⟨r1, r2, rest, h1, h2, hu⟩)
    · rw [h1, h2]
    · apply String.ext
      rw [hd1, hd2, h1, h2]
      simp [hu]

theorem two_doc_blocks_same_group (caseTable : Char → Char) (T : String)
    (d1 d2 : CommentGroup) (specs1 specs2 : List Spec) (g : String)
    (h1 : docGroup caseTable d1 = some g) (h2 : docGroup caseTable d2 = some g)
    (hg : g ≠ "") :
    ((newGenerator (blocksPackage [⟨some d1, specs1⟩, ⟨some d2, specs2⟩]) T
        ).parseConstants caseTable).constantInfo.Groups
      = (if Block.typedNames T ⟨some d1, specs1⟩ ++ Block.typedNames T ⟨some d2, specs2⟩ = []
          then []
         else [(g, Block.typedNames T ⟨some d1, specs1⟩
            ++ Block.typedNames T ⟨some d2, specs2⟩)]) := by
  rw [parseConstants_eq_foldl]
  simp only [newGenerator, blocksPackage_constBlocks, List.foldl_cons, List.foldl_nil,
    visitBlock, visitGenDecl_const, specLoop_some, h1, h2, Option.getD_some,
    ConstantInfo.append_append, ConstantInfo.append_Typ, Block.typedNames]
  simp [ConstantInfo.append, GroupMap.set, GroupMap.get, hg]

/-- C11, amended.  Two names get the same group key exactly when both are
empty, or they agree after their first character and their first characters
have the same image under `unicode.ToUpper` (as `margin` and `Margin` do);
names that differ in case further on, like `Margin` and `MARGIN`, keep apart.
Two blocks whose doc comments name the same key put their members into that
one group, in source order. -/
theorem case_collapse_first_letter (caseTable : Char → Char) (s1 s2 : String) :
    (toTitleCase caseTable s1 = toTitleCase caseTable s2 ↔
      (s1 = "" ∧ s2 = "")
        ∨ ∃ r1 r2 rest, s1.data = r1 :: rest ∧ s2.data = r2 :: rest
            ∧ unicodeToUpper caseTable r1 = unicodeToUpper caseTable r2)
      ∧ (∀ (T : String) (d1 d2 : CommentGroup) (specs1 specs2 : List Spec) (g : String),
          docGroup caseTable d1 = some g → docGroup caseTable d2 = some g → g ≠ "" →
          ((newGenerator (blocksPackage [⟨some d1, specs1⟩, ⟨some d2, specs2⟩]) T
              ).parseConstants caseTable).constantInfo.Groups
            = (if Block.typedNames T ⟨some d1, specs1⟩
                  ++ Block.typedNames T ⟨some d2, specs2⟩ = [] then []
               else [(g, Block.typedNames T ⟨some d1, specs1⟩
                  ++ Block.typedNames T ⟨some d2, specs2⟩)])) :=
  ⟨toTitleCase_eq_iff_aux caseTable s1 s2,
    fun T d1 d2 specs1 specs2 g h1 h2 hg =>
      two_doc_blocks_same_group caseTable T d1 d2 specs1 specs2 g h1 h2 hg⟩

/-- C11, amended, at a concrete input: `margin` and `Margin` give one key, and
the blocks under `// @group margin` and `// @group Margin` share the group. -/
theorem case_collapse_first_letter_witness :
    toTitleCase (fun r => r) "margin" = toTitleCase (fun r => r) "Margin"
      ∧ ((newGenerator (blocksPackage
            [⟨some marginLower, [typedSpec "T" ["A"] []]⟩,
             ⟨some marginUpper, [typedSpec "T" ["B"] []]⟩]) "T"
          ).parseConstants (fun r => r)).constantInfo.Groups = [("Margin", ["A", "B"])] :=
  ⟨(case_collapse_first_letter (fun r => r) "margin" "Margin").1.mpr
      (Or.inr ⟨'m', 'M', "argin".data, rfl, rfl, rfl⟩),
   ((case_collapse_first_letter (fun r => r) "margin" "Margin").2 "T" marginLower marginUpper
      [typedSpec "T" ["A"] []] [typedSpec "T" ["B"] []] "Margin" rfl rfl (by decide)).trans
      (by rfl)⟩

/-! ## C13 and C14: the sample input -/

theorem specLoop_congr (ct1 ct2 : Char → Char) (declDoc : Option CommentGroup)
    (specs : List Spec) (st : String × ConstantInfo)
    (h : ∀ spec ∈ specs, (applicableDoc declDoc spec).bind (docGroup ct1)
      = (applicableDoc declDoc spec).bind (docGroup ct2)) :
    specLoop ct1 declDoc specs st = specLoop ct2 declDoc specs st := by
  induction specs generalizing st with
  | nil => rfl
  | cons x xs ih =>
    rw [specLoop_cons, specLoop_cons, visitSpec_eq, visitSpec_eq,
      h x (List.mem_cons_self _ _)]
    exact ih _ (fun s hs => h s (List.mem_cons_of_mem _ hs))

theorem foldl_visitBlock_congr (ct1 ct2 : Char → Char) (bs : List Block) (ci : ConstantInfo)
    (h : ∀ b ∈ bs, ∀ spec ∈ b.Specs, (applicableDoc b.Doc spec).bind (docGroup ct1)
      = (applicableDoc b.Doc spec).bind (docGroup ct2)) :
    bs.foldl (visitBlock ct1) ci = bs.foldl (visitBlock ct2) ci := by
  induction bs generalizing ci with
  | nil => rfl
  | cons b bs ih =>
    rw [List.foldl_cons, List.foldl_cons, ih _ (fun b1 hb1 => h b1 (List.mem_cons_of_mem _ hb1))]
    congr 1
    rw [visitBlock, visitBlock, visitGenDecl_const, visitGenDecl_const,
      specLoop_congr ct1 ct2 b.Doc b.Specs _ (h b (List.mem_cons_self _ _))]

/-- On the sample input the case tables are never consulted: both group names
start with an ASCII letter. -/
theorem sample_independent (caseTable : Char → Char) (T : String) :
    ((newGenerator testdataPackage T).parseConstants caseTable).constantInfo
      = ((newGenerator testdataPackage T).parseConstants (fun r => r)).constantInfo := by
  rw [parseConstants_eq_foldl, parseConstants_eq_foldl]
  apply foldl_visitBlock_congr
  have hb : (newGenerator testdataPackage T).pkg.constBlocks
      = [sideBlock, privateChannelBlock, miscBlock] := rfl
  rw [hb]
  have hMisc : docGroup caseTable ⟨[⟨"// @group Misc"⟩]⟩
      = docGroup (fun r => r) ⟨[⟨"// @group Misc"⟩]⟩ := rfl
  intro b hb spec hs
  simp only [List.mem_cons, List.mem_singleton, List.not_mem_nil, or_false] at hb
  rcases hb with rfl | rfl | rfl
  · simp only [sideBlock, List.mem_cons, List.mem_singleton, List.not_mem_nil, or_false] at hs
    rcases hs with rfl | rfl <;> rfl
  · simp only [privateChannelBlock, List.mem_cons, List.mem_singleton, List.not_mem_nil,
      or_false] at hs
    rcases hs with rfl | rfl | rfl | rfl | rfl | rfl | rfl | rfl | rfl | rfl | rfl | rfl
      | rfl | rfl | rfl
    all_goals rfl
  · simp only [miscBlock, applicableDoc, Option.bind]
    exact hMisc

/-- C13, refuted as stated.  On `testdata/privateevent.go` with the target type
`PrivateChannel` the symbol list does not have 19 entries, whatever the case
tables are. -/
theorem sample_count_counterexample :
    ¬ ∃ caseTable : Char → Char,
      ((newGenerator testdataPackage "PrivateChannel").parseConstants
        caseTable).constantInfo.Constants.length = 19 := by
  rintro ⟨caseTable, h⟩
  rw [sample_independent] at h
  revert h
  decide

/-- C13, amended.  On `testdata/privateevent.go` with the target type
`PrivateChannel` the symbol list has exactly 17 entries, in declaration order,
and 7 of them, the first seven, belong to no group. -/
theorem sample_constants (caseTable : Char → Char) :
    ((newGenerator testdataPackage "PrivateChannel").parseConstants
        caseTable).constantInfo.Constants
        = ["PrivateChannelOrder", "PrivateChannelOrderUpdate", "PrivateChannelTrade",
           "PrivateChannelTradeUpdate", "PrivateChannelTradeFastUpdate",
           "PrivateChannelAccount", "PrivateChannelAccountUpdate",
           "PrivateChannelMWalletOrder", "PrivateChannelMWalletTrade",
           "PrivateChannelMWalletTradeFastUpdate", "PrivateChannelMWalletAccount",
           "PrivateChannelMWalletAveragePrice", "PrivateChannelBorrowing",
           "PrivateChannelAdRatio", "PrivateChannelPoolQuota",
           "PrivateChannelAveragePrice", "PrivateChannelFavoriteMarket"]
      ∧ ((newGenerator testdataPackage "PrivateChannel").parseConstants
          caseTable).constantInfo.Constants.length = 17
      ∧ ((newGenerator testdataPackage "PrivateChannel").parseConstants
          caseTable).constantInfo.ungrouped
        = ["PrivateChannelOrder", "PrivateChannelOrderUpdate", "PrivateChannelTrade",
           "PrivateChannelTradeUpdate", "PrivateChannelTradeFastUpdate",
           "PrivateChannelAccount", "PrivateChannelAccountUpdate"]
      ∧ ((newGenerator testdataPackage "PrivateChannel").parseConstants
          caseTable).constantInfo.ungrouped.length = 7 := by
  rw [sample_independent]
  refine ⟨by rfl, by rfl, by decide, by decide⟩

/-- C14. On `testdata/privateevent.go` with the target type `PrivateChannel`,
`Groups` has exactly the keys `Margin` and `Misc`; `Margin` is the eight names
from `PrivateChannelMWalletOrder` to `PrivateChannelPoolQuota` in declaration
order and `Misc` is `PrivateChannelAveragePrice`, `PrivateChannelFavoriteMarket`;
`PrivateChannelBorrowing` is a member of `Margin` and `PrivateChannelOrder` is
not. -/
theorem sample_groups (caseTable : Char → Char) :
    ((newGenerator testdataPackage "PrivateChannel").parseConstants
        caseTable).constantInfo.Groups
        = [("Margin",
            ["PrivateChannelMWalletOrder", "PrivateChannelMWalletTrade",
             "PrivateChannelMWalletTradeFastUpdate", "PrivateChannelMWalletAccount",
             "PrivateChannelMWalletAveragePrice", "PrivateChannelBorrowing",
             "PrivateChannelAdRatio", "PrivateChannelPoolQuota"]),
           ("Misc", ["PrivateChannelAveragePrice", "PrivateChannelFavoriteMarket"])]
      ∧ ((newGenerator testdataPackage "PrivateChannel").parseConstants
          caseTable).constantInfo.Groups.keys = ["Margin", "Misc"]
      ∧ "PrivateChannelBorrowing" ∈ ((newGenerator testdataPackage "PrivateChannel"
          ).parseConstants caseTable).constantInfo.Groups.get "Margin"
      ∧ "PrivateChannelOrder" ∉ ((newGenerator testdataPackage "PrivateChannel"
          ).parseConstants caseTable).constantInfo.Groups.get "Margin" := by
  rw [sample_independent]
  refine ⟨by rfl, by rfl, by decide, by decide⟩

/-! ## C19: nested const declarations -/

theorem inspect_nestIn (caseTable : Char → Char) (depth : Nat) (node : Node)
    (ci : ConstantInfo) :
    inspect caseTable (nestIn depth node) ci = inspect caseTable node ci := by
  induction depth with
  | zero => rfl
  | succ d ih => simp only [nestIn, inspect, inspectList, ih]

/-- C19, refuted as stated.  For a file whose only declaration is
`func f() { const A T = 1 }`, the name `A` of the nested const declaration is
in `Constants`, whatever the case tables are. -/
theorem nested_const_counterexample :
    ¬ ∃ caseTable : Char → Char,
      "A" ∉ ((newGenerator nestedPackage "T").parseConstants caseTable).constantInfo.Constants := by
  rintro ⟨caseTable, h⟩
  have hC : ((newGenerator nestedPackage "T").parseConstants caseTable).constantInfo.Constants
      = ["A"] := rfl
  rw [hC] at h
  revert h
  decide

/-- C19, amended.  Every const declaration of a syntax tree is analyzed, at
whatever depth: the walk descends into every node, so a const declaration below
any number of enclosing nodes (a function body, say) is handled exactly as the
same declaration at top level, and the names declared in the package with the
explicit type `T` all reach `Constants`, nested ones included. -/
theorem nested_const_analyzed (caseTable : Char → Char) (depth : Nat) (b : Block)
    (ci : ConstantInfo) (pkg : Package) (T : String) :
    inspect caseTable (nestIn depth b.toNode) ci = visitBlock caseTable ci b
      ∧ (∀ children : List Node,
          inspect caseTable (Node.other children) ci = inspectList caseTable children ci)
      ∧ ((newGenerator pkg T).parseConstants caseTable).constantInfo
          = pkg.constBlocks.foldl (visitBlock caseTable) (emptyInfo T)
      ∧ (blocksPackage [b]).constBlocks = [b]
      ∧ ({ Name := "p", Syntax := [⟨[nestIn depth b.toNode]⟩] } : Package).constBlocks = [b] := by
  have hnest : ∀ d : Nat, constBlocks (nestIn d b.toNode) = [b] := by
    intro d
    induction d with
    | zero => simp [nestIn, Block.toNode, constBlocks, constBlocksList]
    | succ d ih => simp [nestIn, constBlocks, constBlocksList, ih]
  refine ⟨?_, fun children => by simp [inspect], ?_, blocksPackage_constBlocks [b], ?_⟩
  · rw [inspect_nestIn]
    simp [Block.toNode, inspect, inspectList, visitBlock]
  · rw [parseConstants_eq_foldl]
    rfl
  · simp [Package.constBlocks, constBlocksList, hnest]

/-! ## C20: what counts as a group line -/

theorem repeatGreedy_of_fail {α : Type} (cls : Char → Bool)
    (k : List Char → List Char → Option α)
    (hk : ∀ taken c rest, cls c = true → k taken (c :: rest) = none)
    (taken input : List Char) :
    repeatGreedy cls k taken input
      = k (taken ++ input.takeWhile cls) (input.dropWhile cls) := by
  induction input generalizing taken with
  | nil => simp [repeatGreedy]
  | cons c rest ih =>
    by_cases hc : cls c = true
    · simp only [repeatGreedy, hc, if_true, List.takeWhile_cons_of_pos,
        List.dropWhile_cons_of_pos]
      rw [ih (taken ++ [c]), hk taken c rest hc]
      have hl : taken ++ [c] ++ List.takeWhile cls rest
          = taken ++ c :: List.takeWhile cls rest := by simp
      rw [hl]
      cases k (taken ++ c :: List.takeWhile cls rest) (List.dropWhile cls rest) <;> rfl
    · simp [repeatGreedy, hc]

theorem repeatGreedy_of_isSome {α : Type} (cls : Char → Bool)
    (k : List Char → List Char → Option α)
    (hk : ∀ taken rest, taken ≠ [] → (k taken rest).isSome = true)
    (taken input : List Char) :
    repeatGreedy cls k taken input
      = k (taken ++ input.takeWhile cls) (input.dropWhile cls) := by
  induction input generalizing taken with
  | nil => simp [repeatGreedy]
  | cons c rest ih =>
    by_cases hc : cls c = true
    · simp only [repeatGreedy, hc, if_true, List.takeWhile_cons_of_pos,
        List.dropWhile_cons_of_pos]
      rw [ih (taken ++ [c])]
      have hl : taken ++ [c] ++ List.takeWhile cls rest
          = taken ++ c :: List.takeWhile cls rest := by simp
      rw [hl]
      have hs := hk (taken ++ c :: List.takeWhile cls rest) (List.dropWhile cls rest)
        (by simp)
      cases hr : k (taken ++ c :: List.takeWhile cls rest) (List.dropWhile cls rest) with
      | none => simp [hr] at hs
      | some r => rfl
    · simp [repeatGreedy, hc]

theorem matchAtoms_chars (lit : List Char) (atoms : List ReAtom) (capture input : List Char) :
    matchAtoms (lit.map ReAtom.char ++ atoms) capture input
      = if lit.isPrefixOf input then matchAtoms atoms capture (input.drop lit.length)
        else none := by
  induction lit generalizing input with
  | nil => simp
  | cons c cs ih =>
    cases input with
    | nil => simp [matchAtoms]
    | cons x rest =>
      by_cases hx : x = c
      · subst hx
        simp [matchAtoms, ih]
      · have hx2 : ¬ c = x := fun e => hx e.symm
        simp [matchAtoms, hx, hx2]

theorem matchAtoms_capturePlus (input : List Char) :
    matchAtoms [ReAtom.capturePlus (fun c => !reSpace c)] [] input
      = if input.takeWhile (fun c => !reSpace c) = [] then none
        else some (input.takeWhile (fun c => !reSpace c),
          input.dropWhile (fun c => !reSpace c)) := by
  simp only [matchAtoms]
  rw [repeatGreedy_of_isSome]
  · simp
  · intro taken rest ht
    simp [ht]

theorem matchAtoms_tail (input : List Char) :
    matchAtoms [ReAtom.plus reSpace, ReAtom.capturePlus (fun c => !reSpace c)] [] input
      = if input.takeWhile reSpace = [] then none
        else matchAtoms [ReAtom.capturePlus (fun c => !reSpace c)] []
          (input.dropWhile reSpace) := by
  have hstep : matchAtoms [ReAtom.plus reSpace, ReAtom.capturePlus (fun c => !reSpace c)] []
      input = repeatGreedy reSpace
        (fun taken rest => if taken = [] then none
          else matchAtoms [ReAtom.capturePlus (fun c => !reSpace c)] [] rest) [] input := rfl
  rw [hstep, repeatGreedy_of_fail]
  · simp
  · intro taken c rest hc
    rw [matchAtoms_capturePlus]
    simp [hc]

theorem take_length_sub (a b : List Char) : (a ++ b).take ((a ++ b).length - b.length) = a := by
  have : (a ++ b).length - b.length = a.length := by simp
  rw [this, List.take_left']
  rfl

theorem reSpace_ne_at {c : Char} (h : reSpace c = true) : c ≠ '@' := by
  intro e
  subst e
  revert h
  decide

theorem matchAtoms_groupRegex (r : List Char) :
    matchAtoms groupRegex [] ('/' :: '/' :: r)
      = matchAtoms ("@group".data.map ReAtom.char
          ++ [ReAtom.plus reSpace, ReAtom.capturePlus (fun c => !reSpace c)]) []
          (r.dropWhile reSpace) := by
  have hstep : matchAtoms groupRegex [] ('/' :: '/' :: r)
      = repeatGreedy reSpace (fun _ rest => matchAtoms ("@group".data.map ReAtom.char
          ++ [ReAtom.plus reSpace, ReAtom.capturePlus (fun c => !reSpace c)]) [] rest) [] r := by
    simp [groupRegex, matchAtoms]
  rw [hstep, repeatGreedy_of_fail]
  intro taken c rest hc
  rw [matchAtoms_chars]
  have hne : ¬ '@' = c := fun e => reSpace_ne_at hc e.symm
  have : ("@group".data.isPrefixOf (c :: rest)) = false := by
    simp [List.isPrefixOf, hne]
  simp [this]

theorem groupRegexMatch_of_not_slashes (text : List Char)
    (h : "//".data.isPrefixOf text = false) :
    findAnchored groupRegex text = none ∧ groupRegexMatch text = none := by
  constructor
  · have hg : groupRegex = "//".data.map ReAtom.char
        ++ (ReAtom.star reSpace :: ("@group".data.map ReAtom.char
          ++ [ReAtom.plus reSpace, ReAtom.capturePlus (fun c => !reSpace c)])) := rfl
    unfold findAnchored
    rw [hg, matchAtoms_chars, h]
    rfl
  · unfold groupRegexMatch
    split
    · simp [List.isPrefixOf] at h
    · rfl

theorem groupRegexMatch_of_not_keyword (r : List Char)
    (h : "@group".data.isPrefixOf (r.dropWhile reSpace) = false) :
    findAnchored groupRegex ('/' :: '/' :: r) = none
      ∧ groupRegexMatch ('/' :: '/' :: r) = none := by
  constructor
  · unfold findAnchored
    rw [matchAtoms_groupRegex, matchAtoms_chars, h]
    rfl
  · simp only [groupRegexMatch]
    split
    · rename_i r2 heq
      rw [heq] at h
      simp [List.isPrefixOf] at h
    · rfl

theorem groupRegexMatch_of_keyword (r r2 : List Char)
    (h : r.dropWhile reSpace = "@group".data ++ r2) :
    findAnchored groupRegex ('/' :: '/' :: r) = groupRegexMatch ('/' :: '/' :: r) := by
  have hd : r.dropWhile reSpace = '@' :: 'g' :: 'r' :: 'o' :: 'u' :: 'p' :: r2 := h
  have hr : r = r.takeWhile reSpace ++ ("@group".data ++ r2) := by
    rw [← h, List.takeWhile_append_dropWhile]
  simp only [groupRegexMatch, hd, findAnchored, matchAtoms_groupRegex, matchAtoms_chars]
  have hp : ("@group".data.isPrefixOf ('@' :: 'g' :: 'r' :: 'o' :: 'u' :: 'p' :: r2)) = true := by
    simp [List.isPrefixOf]
  rw [hp]
  simp only [if_true]
  have hdrop : List.drop "@group".data.length ('@' :: 'g' :: 'r' :: 'o' :: 'u' :: 'p' :: r2) = r2 := rfl
  rw [hdrop, matchAtoms_tail, matchAtoms_capturePlus]
  by_cases h1 : r2.takeWhile reSpace = []
  · simp [h1]
  · by_cases h2 : (r2.dropWhile reSpace).takeWhile (fun c => !reSpace c) = []
    · simp [h1, h2]
    · simp only [h1, h2, if_false, ne_eq, not_false_eq_true, and_self, if_true]
      have h3 : r2 = r2.takeWhile reSpace
          ++ ((r2.dropWhile reSpace).takeWhile (fun c => !reSpace c)
            ++ (r2.dropWhile reSpace).dropWhile (fun c => !reSpace c)) := by
        rw [List.takeWhile_append_dropWhile, List.takeWhile_append_dropWhile]
      have htext : '/' :: '/' :: r
          = ('/' :: '/' :: (r.takeWhile reSpace ++ ['@', 'g', 'r', 'o', 'u', 'p']
              ++ r2.takeWhile reSpace
              ++ (r2.dropWhile reSpace).takeWhile (fun c => !reSpace c)))
            ++ (r2.dropWhile reSpace).dropWhile (fun c => !reSpace c) := by
        conv_lhs => rw [hr]
        conv_lhs => rw [h3]
        simp
      have htake := take_length_sub
        ('/' :: '/' :: (r.takeWhile reSpace ++ ['@', 'g', 'r', 'o', 'u', 'p']
              ++ r2.takeWhile reSpace
              ++ (r2.dropWhile reSpace).takeWhile (fun c => !reSpace c)))
        ((r2.dropWhile reSpace).dropWhile (fun c => !reSpace c))
      rw [← htext] at htake
      rw [htake]

theorem findAnchored_groupRegex (text : List Char) :
    findAnchored groupRegex text = groupRegexMatch text := by
  cases hs : "//".data.isPrefixOf text with
  | false =>
    have h := groupRegexMatch_of_not_slashes text hs
    rw [h.1, h.2]
  | true =>
    obtain ⟨r, hr⟩ := List.isPrefixOf_iff_prefix.mp hs
    have ht : text = '/' :: '/' :: r := hr.symm
    subst ht
    cases hk : "@group".data.isPrefixOf (r.dropWhile reSpace) with
    | false =>
      have h := groupRegexMatch_of_not_keyword r hk
      rw [h.1, h.2]
    | true =>
      obtain ⟨r2, hr2⟩ := List.isPrefixOf_iff_prefix.mp hk
      exact groupRegexMatch_of_keyword r r2 hr2.symm

theorem groupRegexMatch_keyword_eq (r r2 : List Char)
    (hd : r.dropWhile reSpace = '@' :: 'g' :: 'r' :: 'o' :: 'u' :: 'p' :: r2) :
    groupRegexMatch ('/' :: '/' :: r) =
      if r2.takeWhile reSpace ≠ []
          ∧ (r2.dropWhile reSpace).takeWhile (fun c => !reSpace c) ≠ [] then
        some ('/' :: '/' :: (r.takeWhile reSpace ++ "@group".data ++ r2.takeWhile reSpace
                ++ (r2.dropWhile reSpace).takeWhile (fun c => !reSpace c)),
              (r2.dropWhile reSpace).takeWhile (fun c => !reSpace c))
      else none := by
  simp only [groupRegexMatch, hd]

theorem groupRegexMatch_of_isGroupLine {text name : List Char} (h : IsGroupLine text name) :
    ∃ whole, groupRegexMatch text = some (whole, name) := by
  obtain ⟨ws1, ws2, rest, htext, hws1, hws2ne, hws2, hname_ne, hname, hrest⟩ := h
  have hr : text = '/' :: '/' :: (ws1 ++ ('@' :: 'g' :: 'r' :: 'o' :: 'u' :: 'p'
      :: (ws2 ++ (name ++ rest)))) := by
    rw [htext]
    simp
  have hat : ¬ reSpace '@' = true := by decide
  have hd : (ws1 ++ ('@' :: 'g' :: 'r' :: 'o' :: 'u' :: 'p' :: (ws2 ++ (name ++ rest)))).dropWhile
      reSpace = '@' :: 'g' :: 'r' :: 'o' :: 'u' :: 'p' :: (ws2 ++ (name ++ rest)) := by
    rw [List.dropWhile_append_of_pos hws1, List.dropWhile_cons_of_neg hat]
  have ht : (ws1 ++ ('@' :: 'g' :: 'r' :: 'o' :: 'u' :: 'p' :: (ws2 ++ (name ++ rest)))).takeWhile
      reSpace = ws1 := by
    rw [List.takeWhile_append_of_pos hws1, List.takeWhile_cons_of_neg hat]
    simp
  obtain ⟨n0, ns, hn⟩ := List.exists_cons_of_ne_nil hname_ne
  have hn0 : ¬ reSpace n0 = true := by
    have := hname n0 (by rw [hn]; exact List.mem_cons_self _ _)
    simp [this]
  have ht2 : (ws2 ++ (name ++ rest)).takeWhile reSpace = ws2 := by
    rw [List.takeWhile_append_of_pos hws2, hn, List.cons_append,
      List.takeWhile_cons_of_neg hn0]
    simp
  have hd2 : (ws2 ++ (name ++ rest)).dropWhile reSpace = name ++ rest := by
    rw [List.dropWhile_append_of_pos hws2, hn, List.cons_append,
      List.dropWhile_cons_of_neg hn0]
  have hname2 : ∀ c ∈ name, (fun c => !reSpace c) c = true := by
    intro c hc
    simp [hname c hc]
  have ht3 : (name ++ rest).takeWhile (fun c => !reSpace c) = name := by
    rw [List.takeWhile_append_of_pos hname2]
    cases rest with
    | nil => simp
    | cons x xs =>
      have hx := hrest x (by simp)
      rw [List.takeWhile_cons_of_neg (by simp [hx])]
      simp
  rw [hr, groupRegexMatch_keyword_eq _ _ hd, ht, ht2, hd2, ht3]
  simp [hws2ne, hname_ne]

theorem isGroupLine_of_groupRegexMatch {text whole name : List Char}
    (h : groupRegexMatch text = some (whole, name)) : IsGroupLine text name := by
  cases hs : "//".data.isPrefixOf text with
  | false =>
    rw [(groupRegexMatch_of_not_slashes text hs).2] at h
    cases h
  | true =>
    obtain ⟨r, hr⟩ := List.isPrefixOf_iff_prefix.mp hs
    have ht : text = '/' :: '/' :: r := hr.symm
    subst ht
    cases hk : "@group".data.isPrefixOf (r.dropWhile reSpace) with
    | false =>
      rw [(groupRegexMatch_of_not_keyword r hk).2] at h
      cases h
    | true =>
      obtain ⟨r2, hr2⟩ := List.isPrefixOf_iff_prefix.mp hk
      have hd : r.dropWhile reSpace = '@' :: 'g' :: 'r' :: 'o' :: 'u' :: 'p' :: r2 := hr2.symm
      rw [groupRegexMatch_keyword_eq r r2 hd] at h
      split at h
      · rename_i hcond
        simp only [Option.some.injEq, Prod.mk.injEq] at h
        refine ⟨r.takeWhile reSpace, r2.takeWhile reSpace,
          (r2.dropWhile reSpace).dropWhile (fun c => !reSpace c), ?_, ?_, hcond.1, ?_, ?_, ?_, ?_⟩
        · rw [← h.2]
          have h1 : r = r.takeWhile reSpace ++ r.dropWhile reSpace :=
            (List.takeWhile_append_dropWhile reSpace r).symm
          have h2 : r2 = r2.takeWhile reSpace
              ++ ((r2.dropWhile reSpace).takeWhile (fun c => !reSpace c)
                ++ (r2.dropWhile reSpace).dropWhile (fun c => !reSpace c)) := by
            rw [List.takeWhile_append_dropWhile, List.takeWhile_append_dropWhile]
          conv_lhs => rw [h1, hd]
          conv_lhs => rw [h2]
          simp
        · intro c hc
          exact List.mem_takeWhile_imp hc
        · intro c hc
          exact List.mem_takeWhile_imp hc
        · rw [← h.2]
          exact hcond.2
        · intro c hc
          rw [← h.2] at hc
          have := List.mem_takeWhile_imp hc
          simpa using this
        · intro c hc
          have hnot := List.head?_dropWhile_not (fun c => !reSpace c) (r2.dropWhile reSpace)
          rw [Option.mem_def] at hc
          rw [hc] at hnot
          simpa using hnot
      · cases h

theorem FindStringSubmatch_eq_pair_iff (text whole name : String) :
    FindStringSubmatch text = [whole, name]
      ↔ groupRegexMatch text.data = some (whole.data, name.data) := by
  unfold FindStringSubmatch
  cases groupRegexMatch text.data with
  | none => simp
  | some wn =>
    obtain ⟨w, n⟩ := wn
    obtain ⟨wd⟩ := whole
    obtain ⟨nd⟩ := name
    have hmk : ∀ a b : List Char, (String.mk a = String.mk b) ↔ a = b :=
      fun a b => ⟨fun h => congrArg String.data h, fun h => congrArg String.mk h⟩
    simp [hmk]

theorem FindStringSubmatch_length (text : String) :
    (FindStringSubmatch text).length = 2 ↔ (groupRegexMatch text.data).isSome = true := by
  unfold FindStringSubmatch
  cases groupRegexMatch text.data with
  | none => simp
  | some wn =>
    obtain ⟨w, n⟩ := wn
    simp

/-- C20. A comment line is recognized as a group line (`len(matches) == 2`)
if and only if it consists of `//`, any number of white space characters, the
keyword `@group`, at least one white space character and a non-empty run of
characters that are not white space, ending at the end of the line or in front
of a white space character; that run is the capture, and what follows it is
ignored.  White space is the class `\s` of the pattern (tab, line feed, form
feed, carriage return, space).  The hand-written matcher agrees with the
backtracking match of the pattern.  `//@group X` and
`//   @group   X trailing` name the group `X`; `// @Group X`, `// @groupX`,
`// @group` and `// see @group X` are not group lines. -/
theorem group_line_recognized (caseTable : Char → Char) (text : String) :
    ((FindStringSubmatch text).length = 2 ↔ ∃ name, IsGroupLine text.data name)
      ∧ (∀ name : String,
          (∃ whole, FindStringSubmatch text = [whole, name]) ↔ IsGroupLine text.data name.data)
      ∧ findAnchored groupRegex text.data = groupRegexMatch text.data
      ∧ FindStringSubmatch "//@group X" = ["//@group X", "X"]
      ∧ lineGroup caseTable "//@group X" = some "X"
      ∧ FindStringSubmatch "//   @group   X trailing" = ["//   @group   X", "X"]
      ∧ lineGroup caseTable "//   @group   X trailing" = some "X"
      ∧ FindStringSubmatch "// @Group X" = []
      ∧ FindStringSubmatch "// @groupX" = []
      ∧ FindStringSubmatch "// @group" = []
      ∧ FindStringSubmatch "// see @group X" = [] := by
  refine ⟨?_, ?_, findAnchored_groupRegex text.data, by rfl, by rfl, by rfl, by rfl, by rfl,
    by rfl, by rfl, by rfl⟩
  · rw [FindStringSubmatch_length]
    constructor
    · intro h
      cases hm : groupRegexMatch text.data with
      | none => simp [hm] at h
      | some wn =>
        obtain ⟨w, n⟩ := wn
        exact ⟨n, isGroupLine_of_groupRegexMatch hm⟩
    · rintro ⟨name, h⟩
      obtain ⟨whole, hw⟩ := groupRegexMatch_of_isGroupLine h
      simp [hw]
  · intro name
    constructor
    · rintro ⟨whole, h⟩
      exact isGroupLine_of_groupRegexMatch ((FindStringSubmatch_eq_pair_iff _ _ _).mp h)
    · intro h
      obtain ⟨whole, hw⟩ := groupRegexMatch_of_isGroupLine h
      exact ⟨String.mk whole, (FindStringSubmatch_eq_pair_iff _ _ _).mpr hw⟩

/-! ## C16: the literals of the rendered text -/

theorem concat_append (xs ys : List String) : concat (xs ++ ys) = concat xs ++ concat ys := by
  induction xs with
  | nil => simp [concat]
  | cons x xs ih => simp [concat, ih, String.append_assoc]

theorem Execute_eq (d : TemplateData) :
    Execute d =
      "// Code generated by go:generate; DO NOT EDIT.\npackage " ++ d.PkgName
        ++ "\n\nvar All" ++ d.Typ ++ "s = map[" ++ d.Typ ++ "]struct\x7b\x7d\x7b"
        ++ mapEntries d.Constants ++ "\n\x7d"
        ++ concat ((sortedKeys d.Groups).map (fun k =>
            "\nvar All" ++ k ++ d.Typ ++ "s = map[" ++ d.Typ ++ "]struct\x7b\x7d\x7b"
              ++ mapEntries (d.Groups.get k) ++ groupRest d k))
        ++ "\n\nvar All" ++ d.Typ ++ "sSlice = []" ++ d.Typ ++ "\x7b"
        ++ sliceEntries d.Constants ++ trailer d := by
  simp [Execute, templateText, concat, TopNode.exec, GroupNode.exec, execLeaves, Leaf.exec,
    groupRest, trailer, groupNodes, mapEntries, sliceEntries, String.append_assoc]

theorem splitLines_ne_nil (s : List Char) : splitLines s ≠ [] := by
  induction s with
  | nil => simp [splitLines]
  | cons c rest ih =>
    simp only [splitLines]
    split
    · simp
    · split <;> simp

theorem splitLines_append_of_no_newline (l rest ls : List Char) (tail : List (List Char))
    (h : '\n' ∉ l) (hrest : splitLines rest = ls :: tail) :
    splitLines (l ++ rest) = (l ++ ls) :: tail := by
  induction l with
  | nil => simpa using hrest
  | cons c cs ih =>
    have hc : ¬ c = '\n' := by
      intro e
      exact h (e ▸ List.mem_cons_self _ _)
    have hcs : '\n' ∉ cs := fun hm => h (List.mem_cons_of_mem _ hm)
    show splitLines (c :: (cs ++ rest)) = (c :: (cs ++ ls)) :: tail
    simp only [splitLines, hc, if_false]
    rw [ih hcs]

theorem concat_data (xs : List String) : (concat xs).data = xs.flatMap String.data := by
  induction xs with
  | nil => rfl
  | cons x xs ih => simp [concat, String.data_append, ih]

theorem splitLines_entries (suffix : String) (hs : '\n' ∉ suffix.data) (names : List String)
    (h : ∀ c ∈ names, '\n' ∉ c.data) :
    splitLines (concat (names.map (fun c => "\n\t" ++ c ++ suffix))).data
      = [] :: names.map (fun c => ("\t" ++ c ++ suffix).data) := by
  induction names with
  | nil => rfl
  | cons c cs ih =>
    have hc : '\n' ∉ c.data := h c (List.mem_cons_self _ _)
    have hcs : ∀ x ∈ cs, '\n' ∉ x.data := fun x hx => h x (List.mem_cons_of_mem _ hx)
    have hline : '\n' ∉ ("\t" ++ c ++ suffix).data := by
      simp only [String.data_append, List.mem_append, not_or]
      exact ⟨⟨by decide, hc⟩, hs⟩
    have hdata : (concat ((c :: cs).map (fun c => "\n\t" ++ c ++ suffix))).data
        = '\n' :: (("\t" ++ c ++ suffix).data
            ++ (concat (cs.map (fun c => "\n\t" ++ c ++ suffix))).data) := by
      simp [concat, String.data_append]
    rw [hdata, List.map_cons]
    generalize ("\t" ++ c ++ suffix).data = line at hline
    have hstep : splitLines ('\n' :: (line
        ++ (concat (cs.map (fun c => "\n\t" ++ c ++ suffix))).data))
        = [] :: splitLines (line ++ (concat (cs.map (fun c => "\n\t" ++ c ++ suffix))).data) := by
      simp [splitLines]
    rw [hstep, splitLines_append_of_no_newline _ _ _ _ hline (ih hcs)]
    simp

theorem linesOf_entries (suffix : String) (hs : '\n' ∉ suffix.data) (names : List String)
    (h : ∀ c ∈ names, '\n' ∉ c.data) :
    linesOf (concat (names.map (fun c => "\n\t" ++ c ++ suffix)))
      = "" :: names.map (fun c => "\t" ++ c ++ suffix) := by
  unfold linesOf
  rw [splitLines_entries suffix hs names h]
  simp only [List.map_cons, List.map_map]
  congr 1

theorem sortedKeys_perm (m : GroupMap) : (sortedKeys m).Perm m.keys :=
  List.perm_insertionSort _ _

/-- C16. The text the template renders holds the global map literal
`All<Type>s`, one map literal `All<Group><Type>s` for every key of `Groups`,
and the global slice literal `All<Type>sSlice`, and between the opening and the
closing brace of each literal there is exactly one line for every element, in
order: the elements of `Constants` for the two global literals, the member list
of the group for a group's literal.  (The lines are told apart by the line
feeds, which no identifier contains.) -/
theorem rendered_literals (d : TemplateData) :
    Execute d =
        "// Code generated by go:generate; DO NOT EDIT.\npackage " ++ d.PkgName
          ++ "\n\nvar All" ++ d.Typ ++ "s = map[" ++ d.Typ ++ "]struct\x7b\x7d\x7b"
          ++ mapEntries d.Constants ++ "\n\x7d"
          ++ concat ((sortedKeys d.Groups).map (fun k =>
              "\nvar All" ++ k ++ d.Typ ++ "s = map[" ++ d.Typ ++ "]struct\x7b\x7d\x7b"
                ++ mapEntries (d.Groups.get k) ++ groupRest d k))
          ++ "\n\nvar All" ++ d.Typ ++ "sSlice = []" ++ d.Typ ++ "\x7b"
          ++ sliceEntries d.Constants ++ trailer d
      ∧ (∀ k : String, ∃ r, groupRest d k = "\n\x7d" ++ r)
      ∧ (∃ r, trailer d = "\n\x7d" ++ r)
      ∧ (sortedKeys d.Groups).Perm d.Groups.keys
      ∧ (∀ names : List String, (∀ c ∈ names, '\n' ∉ c.data) →
          linesOf (mapEntries names) = "" :: names.map (fun c => "\t" ++ c ++ ": \x7b\x7d,"))
      ∧ (∀ names : List String, (∀ c ∈ names, '\n' ∉ c.data) →
          linesOf (sliceEntries names) = "" :: names.map (fun c => "\t" ++ c ++ ",")) := by
  refine ⟨Execute_eq d, ?_, ?_, sortedKeys_perm d.Groups, ?_, ?_⟩
  · intro k
    refine ⟨String.mk ((groupRest d k).data.drop 2), ?_⟩
    apply String.ext
    simp [groupRest, groupNodes, templateText, GroupNode.exec, execLeaves, Leaf.exec, concat,
      String.data_append]
  · refine ⟨String.mk ((trailer d).data.drop 2), ?_⟩
    apply String.ext
    simp [trailer, templateText, TopNode.exec, execLeaves, Leaf.exec, concat,
      String.data_append]
  · intro names h
    exact linesOf_entries ": \x7b\x7d," (by decide) names h
  · intro names h
    exact linesOf_entries "," (by decide) names h

/-- C16 at a concrete input: the entries of the map literal for `SideBuy` and
`SideSell` are two lines, in that order. -/
theorem rendered_literals_witness :
    linesOf (mapEntries ["SideBuy", "SideSell"])
      = ["", "\tSideBuy: \x7b\x7d,", "\tSideSell: \x7b\x7d,"] :=
  ((rendered_literals ⟨"testdata", "Side", ["SideBuy", "SideSell"], false, []⟩).2.2.2.2.1
    ["SideBuy", "SideSell"] (by decide)).trans (by rfl)

/-! ## C17: the rendered text does not depend on a map order -/

theorem char_eq_of_toNat_eq {a b : Char} (h : a.toNat = b.toNat) : a = b :=
  Char.ext (UInt32.ext h)

theorem charsLe_total (a b : List Char) : charsLe a b = true ∨ charsLe b a = true := by
  induction a generalizing b with
  | nil => simp [charsLe]
  | cons x xs ih =>
    cases b with
    | nil => simp [charsLe]
    | cons y ys =>
      simp only [charsLe, Bool.or_eq_true, Bool.and_eq_true, decide_eq_true_eq]
      rcases Nat.lt_trichotomy x.toNat y.toNat with h | h | h
      · exact Or.inl (Or.inl h)
      · rcases ih ys with h1 | h1
        · exact Or.inl (Or.inr ⟨h, h1⟩)
        · exact Or.inr (Or.inr ⟨h.symm, h1⟩)
      · exact Or.inr (Or.inl h)

theorem charsLe_trans (a b c : List Char) (hab : charsLe a b = true) (hbc : charsLe b c = true) :
    charsLe a c = true := by
  induction a generalizing b c with
  | nil => simp [charsLe]
  | cons x xs ih =>
    cases b with
    | nil => simp [charsLe] at hab
    | cons y ys =>
      cases c with
      | nil => simp [charsLe] at hbc
      | cons z zs =>
        simp only [charsLe, Bool.or_eq_true, Bool.and_eq_true, decide_eq_true_eq] at hab hbc ⊢
        rcases hab with h1 | ⟨h1, h1r⟩ <;> rcases hbc with h2 | ⟨h2, h2r⟩
        · exact Or.inl (by omega)
        · exact Or.inl (by omega)
        · exact Or.inl (by omega)
        · exact Or.inr ⟨by omega, ih ys zs h1r h2r⟩

theorem charsLe_antisymm (a b : List Char) (hab : charsLe a b = true) (hba : charsLe b a = true) :
    a = b := by
  induction a generalizing b with
  | nil =>
    cases b with
    | nil => rfl
    | cons y ys => simp [charsLe] at hba
  | cons x xs ih =>
    cases b with
    | nil => simp [charsLe] at hab
    | cons y ys =>
      simp only [charsLe, Bool.or_eq_true, Bool.and_eq_true, decide_eq_true_eq] at hab hba
      rcases hab with h1 | ⟨h1, h1r⟩ <;> rcases hba with h2 | ⟨h2, h2r⟩
      · omega
      · omega
      · omega
      · rw [char_eq_of_toNat_eq h1, ih ys h1r h2r]

theorem keyLe_isTotal : IsTotal String (fun a b => keyLe a b = true) :=
  ⟨fun a b => charsLe_total a.data b.data⟩

theorem keyLe_isTrans : IsTrans String (fun a b => keyLe a b = true) :=
  ⟨fun a b c hab hbc => charsLe_trans a.data b.data c.data hab hbc⟩

theorem keyLe_isAntisymm : IsAntisymm String (fun a b => keyLe a b = true) :=
  ⟨fun a b hab hba => String.ext (charsLe_antisymm a.data b.data hab hba)⟩

theorem sortedKeys_sorted (m : GroupMap) :
    (sortedKeys m).Sorted (fun a b => keyLe a b = true) := by
  haveI := keyLe_isTotal
  haveI := keyLe_isTrans
  exact List.sorted_insertionSort _ _

theorem sortedKeys_eq_of_perm {m1 m2 : GroupMap} (h : m1.Perm m2) :
    sortedKeys m1 = sortedKeys m2 := by
  haveI := keyLe_isAntisymm
  apply List.eq_of_perm_of_sorted _ (sortedKeys_sorted m1) (sortedKeys_sorted m2)
  exact (sortedKeys_perm m1).trans ((h.map Prod.fst).trans (sortedKeys_perm m2).symm)

theorem GroupMap.get_eq_of_perm {m1 m2 : GroupMap} (h : m1.Perm m2) (hnd : m1.keys.Nodup)
    (k : String) : m1.get k = m2.get k := by
  have hnd2 : m2.keys.Nodup := (h.map Prod.fst).nodup_iff.mp hnd
  by_cases hk : k ∈ m1.keys
  · have hmem := GroupMap.mem_of_mem_keys hk
    exact (GroupMap.get_of_mem hnd2 (h.subset hmem)).symm
  · have hk2 : k ∉ m2.keys := fun hm => hk ((h.map Prod.fst).symm.subset hm)
    rw [GroupMap.get_of_not_mem_keys hk, GroupMap.get_of_not_mem_keys hk2]

theorem leaf_exec_congr (d1 d2 : TemplateData) (hp : d1.PkgName = d2.PkgName)
    (ht : d1.Typ = d2.Typ) (hi : d1.HasIntValues = d2.HasIntValues) (g e : String) (l : Leaf) :
    Leaf.exec d1 g e l = Leaf.exec d2 g e l := by
  cases l <;> simp [Leaf.exec, hp, ht, hi]

theorem topNode_exec_congr (d : TemplateData) (m1 m2 : GroupMap) (hnd : m1.keys.Nodup)
    (h : m1.Perm m2) (n : TopNode) :
    TopNode.exec { d with Groups := m1 } n = TopNode.exec { d with Groups := m2 } n := by
  have hl : ∀ g e, Leaf.exec { d with Groups := m1 } g e = Leaf.exec { d with Groups := m2 } g e :=
    fun g e => funext (leaf_exec_congr _ _ rfl rfl rfl g e)
  cases n with
  | run pieces => simp [TopNode.exec, execLeaves, hl]
  | rangeConstants body => simp [TopNode.exec, execLeaves, hl]
  | rangeGroups body =>
    simp only [TopNode.exec]
    rw [sortedKeys_eq_of_perm h]
    congr 1
    apply List.map_congr_left
    intro k _
    rw [GroupMap.get_eq_of_perm h hnd k]
    congr 1

theorem parseConstants_keys_nodup (caseTable : Char → Char) (pkg : Package) (T : String) :
    ((newGenerator pkg T).parseConstants caseTable).constantInfo.Groups.keys.Nodup := by
  apply parseConstants_induction caseTable (fun ci => ci.Groups.keys.Nodup)
  · intro ci g names _ h
    simp only [ConstantInfo.append]
    split
    · exact h
    · exact GroupMap.nodup_keys_set h _ _
  · simp [newGenerator, GroupMap.keys]

/-- C17. The rendered text is a function of the package name, the type name,
`Constants`, `HasIntValues` and the content of `Groups` alone: two maps with the
same entries in whatever order render the same text.  The sections of the
groups come in ascending order of the group name (the order in which a `range`
over a map visits its keys), each key once; and the keys of the map that
`parseConstants` builds are distinct. -/
theorem render_deterministic (d : TemplateData) (m1 m2 : GroupMap) (hnd : m1.keys.Nodup)
    (h : m1.Perm m2) :
    Execute { d with Groups := m1 } = Execute { d with Groups := m2 }
      ∧ (sortedKeys m1).Sorted (fun a b => keyLe a b = true)
      ∧ (sortedKeys m1).Perm m1.keys
      ∧ sortedKeys m1 = sortedKeys m2
      ∧ (∀ (caseTable : Char → Char) (pkg : Package) (T : String),
          ((newGenerator pkg T).parseConstants caseTable).constantInfo.Groups.keys.Nodup) := by
  refine ⟨?_, sortedKeys_sorted m1, sortedKeys_perm m1, sortedKeys_eq_of_perm h,
    parseConstants_keys_nodup⟩
  unfold Execute
  congr 1
  apply List.map_congr_left
  intro n _
  exact topNode_exec_congr d m1 m2 hnd h n

/-- C17 at a concrete input: the groups `Misc` and `Margin` are rendered in the
order `Margin`, `Misc`, whichever comes first in the map. -/
theorem render_deterministic_witness :
    Execute ⟨"p", "T", ["A", "B"], false, [("Misc", ["B"]), ("Margin", ["A"])]⟩
        = Execute ⟨"p", "T", ["A", "B"], false, [("Margin", ["A"]), ("Misc", ["B"])]⟩
      ∧ sortedKeys [("Misc", ["B"]), ("Margin", ["A"])] = ["Margin", "Misc"] :=
  ⟨(render_deterministic ⟨"p", "T", ["A", "B"], false, []⟩
      [("Misc", ["B"]), ("Margin", ["A"])] [("Margin", ["A"]), ("Misc", ["B"])]
      (by decide) (List.Perm.swap _ _ _)).1,
   by decide⟩

/-! ## C15: the conversion routine -/

theorem parseConstants_HasIntValues (caseTable : Char → Char) (g : Generator) :
    (g.parseConstants caseTable).constantInfo.HasIntValues = g.constantInfo.HasIntValues := by
  apply parseConstants_induction caseTable
    (fun ci => ci.HasIntValues = g.constantInfo.HasIntValues)
  · intro ci grp names _ h
    exact h
  · rfl

set_option maxRecDepth 100000 in
theorem sideRendered_eq :
    Execute ((newGenerator testdataPackage "Side").parseConstants (fun r => r)).templateData
      = sideRendered := by
  decide

/-- C15, the code at the failing input.  `main` leaves `HasIntValues` at its
zero value and `parseConstants` never assigns it, so the data of every run has
`HasIntValues = false`; for the integer-valued type `Side` of the sample input
the rendered routine is `SideStrings(slice []Side) (out []string)` with the
conversion `string(el)`, not a conversion to `int`. -/
theorem side_conversion_is_string (caseTable : Char → Char) :
    (∀ (pkg : Package) (T : String),
        ((newGenerator pkg T).parseConstants caseTable).templateData.HasIntValues = false)
      ∧ Execute ((newGenerator testdataPackage "Side").parseConstants caseTable).templateData
          = sideRendered := by
  constructor
  · intro pkg T
    exact parseConstants_HasIntValues caseTable (newGenerator pkg T)
  · have hd : ((newGenerator testdataPackage "Side").parseConstants caseTable).templateData
        = ((newGenerator testdataPackage "Side").parseConstants (fun r => r)).templateData := by
      simp only [Generator.templateData, sample_independent caseTable "Side"]
      rfl
    rw [hd]
    exact sideRendered_eq

/-! ## C18: nothing is written before the text is complete -/

/-- C18. `generateCode` renders into a local buffer and formats the buffer
before it touches the output: when the execution of the template or the
formatting fails, it returns the error and the output file is as it was (no
`Write` has been called); when both succeed, `Write` is called exactly once,
with the whole formatted text, and the result is an error exactly when that
write fails. -/
theorem generateCode_no_partial_output (execute : TemplateData → Except String String)
    (formatSource : String → Except String String) (writeError : String → Option String)
    (g : Generator) (output : OutputFile) :
    (∀ e, execute g.templateData = Except.error e →
        generateCodeWith execute formatSource writeError g output
          = (some (GenerateError.generatingTemplate e), output))
      ∧ (∀ buf e, execute g.templateData = Except.ok buf → formatSource buf = Except.error e →
        generateCodeWith execute formatSource writeError g output
          = (some (GenerateError.formattingSource e), output))
      ∧ (∀ buf formatted, execute g.templateData = Except.ok buf →
          formatSource buf = Except.ok formatted →
        (generateCodeWith execute formatSource writeError g output).2.writes
            = output.writes ++ [formatted]
          ∧ ((generateCodeWith execute formatSource writeError g output).1 = none
              ↔ writeError formatted = none))
      ∧ (∀ e, formatSource (Execute g.templateData) = Except.error e →
        g.generateCode formatSource writeError output
          = (some (GenerateError.formattingSource e), output))
      ∧ (∀ formatted, formatSource (Execute g.templateData) = Except.ok formatted →
        (g.generateCode formatSource writeError output).2.writes
            = output.writes ++ [formatted]
          ∧ ((g.generateCode formatSource writeError output).1 = none
              ↔ writeError formatted = none)) := by
  have hok : ∀ (ex : TemplateData → Except String String) buf formatted,
      ex g.templateData = Except.ok buf → formatSource buf = Except.ok formatted →
      (generateCodeWith ex formatSource writeError g output).2.writes
          = output.writes ++ [formatted]
        ∧ ((generateCodeWith ex formatSource writeError g output).1 = none
            ↔ writeError formatted = none) := by
    intro ex buf formatted h1 h2
    unfold generateCodeWith
    rw [h1]
    simp only [h2]
    cases hw : writeError formatted <;> simp
  have herr : ∀ (ex : TemplateData → Except String String) buf e,
      ex g.templateData = Except.ok buf → formatSource buf = Except.error e →
      generateCodeWith ex formatSource writeError g output
        = (some (GenerateError.formattingSource e), output) := by
    intro ex buf e h1 h2
    unfold generateCodeWith
    rw [h1]
    simp only [h2]
  refine ⟨?_, herr execute, hok execute, ?_, ?_⟩
  · intro e h
    unfold generateCodeWith
    rw [h]
  · intro e h
    exact herr _ _ e rfl h
  · intro formatted h
    exact hok _ _ formatted rfl h

/-- C18 at a concrete input: with a formatter that rejects every text nothing
is written, and with one that accepts there is one write of the formatted
text. -/
theorem generateCode_no_partial_output_witness :
    (newGenerator testdataPackage "Side").generateCode (fun _ => Except.error "syntax")
        (fun _ => none) ⟨[]⟩
        = (some (GenerateError.formattingSource "syntax"), ⟨[]⟩)
      ∧ ((newGenerator testdataPackage "Side").generateCode (fun s => Except.ok s)
        (fun _ => none) ⟨[]⟩).2.writes
        = [] ++ [Execute (newGenerator testdataPackage "Side").templateData] :=
  ⟨(generateCode_no_partial_output (fun d => Except.ok (Execute d))
      (fun _ => Except.error "syntax") (fun _ => none)
      (newGenerator testdataPackage "Side") ⟨[]⟩).2.2.2.1 "syntax" rfl,
   ((generateCode_no_partial_output (fun d => Except.ok (Execute d))
      (fun s => Except.ok s) (fun _ => none)
      (newGenerator testdataPackage "Side") ⟨[]⟩).2.2.2.2
      (Execute (newGenerator testdataPackage "Side").templateData) rfl).1⟩

end Mapgen
